import Mathlib

/-!
Verification of the template compiler embedded in
`python/03_prompt_template.py` (class `TemplateProcessor`).

Text is modelled as `List Char`.  The Python implementation works with
`re`-based scans; every regular expression used by the source is a literal
scan with lazy groups, which we model by explicit leftmost-occurrence
searches (`splitFirst`).  Binding keys are assumed free of regex
metacharacters, matching the observed usage, so the dynamically built
pattern for a variable placeholder is the literal string occurrence.

Recursive scanners are written with an explicit structural fuel argument
(always called with adequate fuel by the wrapper) so that every function
evaluates by kernel reduction; fuel-irrelevance lemmas recover the natural
defining equations.
-/

set_option maxHeartbeats 1000000
set_option maxRecDepth 20000
set_option linter.unusedVariables false
set_option linter.unnecessarySimpa false

/-- Python whitespace characters recognised by `str.strip()` (ASCII range,
which is all the source templates use). -/
def isPySpace (c : Char) : Bool :=
  c == ' ' || c == '\t' || c == '\n' || c == '\r' || c == '\x0b' || c == '\x0c'

/-- Model of Python `str.strip()`: drop leading and trailing whitespace. -/
def pyStrip (t : List Char) : List Char :=
  ((t.dropWhile isPySpace).reverse.dropWhile isPySpace).reverse

/-- Model of Python `text.split('\n')`: split at every newline, keeping
empty pieces, so the result is always nonempty. -/
def splitNl : List Char → List (List Char)
  | [] => [[]]
  | c :: rest =>
    if c = '\n' then [] :: splitNl rest
    else
      match splitNl rest with
      | l :: ls => (c :: l) :: ls
      | [] => [[c]]

/-- Model of Python `'\n'.join(lines)`. -/
def joinNl : List (List Char) → List Char
  | [] => []
  | [l] => l
  | l :: ls => l ++ '\n' :: joinNl ls

/-- The comment marker of the template language: three forward slashes. -/
def commentMark : List Char := ['/', '/', '/']

/-- A line is a comment line when its stripped content starts with `///`
(source: `line.strip().startswith('///')`). -/
def is_comment_line (l : List Char) : Bool :=
  commentMark.isPrefixOf (pyStrip l)

/-- Stage 1 of `TemplateProcessor.process`: `_remove_comments`. -/
def remove_comments (t : List Char) : List Char :=
  joinNl ((splitNl t).filter (fun l => !is_comment_line l))

/-- Leftmost occurrence search: `splitFirst pat s = some (pre, post)` when
`s = pre ++ pat ++ post` and `pre` is the shortest such prefix; `none` when
`pat` does not occur in `s`.  (For the degenerate empty pattern the result
is `none` on the empty string; all patterns used below are nonempty.) -/
def splitFirst (pat : List Char) : List Char → Option (List Char × List Char)
  | [] => none
  | c :: rest =>
    if pat.isPrefixOf (c :: rest) then
      some ([], rest.drop (pat.length - 1))
    else
      match splitFirst pat rest with
      | some (pre, post) => some (c :: pre, post)
      | none => none

theorem isPrefixOf_eq_append {pat s : List Char} (h : pat.isPrefixOf s = true) :
    s = pat ++ s.drop pat.length := by
  induction pat generalizing s with
  | nil => simp
  | cons p ps ih =>
    cases s with
    | nil => simp [List.isPrefixOf] at h
    | cons c rest =>
      simp only [List.isPrefixOf, Bool.and_eq_true, beq_iff_eq] at h
      obtain ⟨rfl, h2⟩ := h
      simpa using ih h2

theorem splitFirst_eq {p0 : Char} {pt : List Char} {s pre post : List Char}
    (h : splitFirst (p0 :: pt) s = some (pre, post)) :
    s = pre ++ (p0 :: pt) ++ post := by
  induction s generalizing pre with
  | nil => simp [splitFirst] at h
  | cons c rest ih =>
    simp only [splitFirst] at h
    split at h
    · next hp =>
      simp only [Option.some.injEq, Prod.mk.injEq] at h
      obtain ⟨rfl, rfl⟩ := h
      have h2 := isPrefixOf_eq_append hp
      simpa using h2
    · next hp =>
      cases hrec : splitFirst (p0 :: pt) rest with
      | none => rw [hrec] at h; simp at h
      | some pr =>
        obtain ⟨pre', post'⟩ := pr
        rw [hrec] at h
        simp only [Option.some.injEq, Prod.mk.injEq] at h
        obtain ⟨rfl, rfl⟩ := h
        have := ih hrec
        simp [this]

theorem splitFirst_ne_eq {pat s pre post : List Char} (hp : pat ≠ [])
    (h : splitFirst pat s = some (pre, post)) : s = pre ++ pat ++ post := by
  cases pat with
  | nil => exact absurd rfl hp
  | cons p0 pt => exact splitFirst_eq h

theorem dropWhile_length_le (p : Char → Bool) :
    ∀ l : List Char, (l.dropWhile p).length ≤ l.length := by
  intro l
  induction l with
  | nil => simp [List.dropWhile]
  | cons c rest ih =>
    simp only [List.dropWhile]
    split
    · exact Nat.le_trans ih (by simp only [List.length_cons]; omega)
    · simp

/-- Fueled worker for `replaceAll`. -/
def replaceAllGo (pat repl : List Char) : Nat → List Char → List Char
  | _, [] => []
  | 0, s => s
  | fuel + 1, c :: rest =>
    if pat ≠ [] ∧ pat.isPrefixOf (c :: rest) then
      repl ++ replaceAllGo pat repl fuel (rest.drop (pat.length - 1))
    else
      c :: replaceAllGo pat repl fuel rest

/-- Replace every occurrence of `pat` by `repl`, scanning left to right
over non-overlapping matches: the model of `re.sub` on a pattern that is a
literal string. -/
def replaceAll (pat repl s : List Char) : List Char :=
  replaceAllGo pat repl s.length s

theorem replaceAllGo_irrel (pat repl : List Char) :
    ∀ (f f' : Nat) (s : List Char), s.length ≤ f → s.length ≤ f' →
      replaceAllGo pat repl f s = replaceAllGo pat repl f' s := by
  intro f
  induction f with
  | zero =>
    intro f' s hf hf'
    have : s = [] := List.eq_nil_of_length_eq_zero (by omega)
    subst this
    cases f' <;> rfl
  | succ f ih =>
    intro f' s hf hf'
    cases s with
    | nil => cases f' <;> rfl
    | cons c rest =>
      cases f' with
      | zero => simp at hf'
      | succ f' =>
        simp only [replaceAllGo]
        simp only [List.length_cons] at hf hf'
        by_cases hc : pat ≠ [] ∧ pat.isPrefixOf (c :: rest)
        · rw [if_pos hc, if_pos hc]
          rw [ih f' (rest.drop (pat.length - 1))
            (by simp only [List.length_drop]; omega)
            (by simp only [List.length_drop]; omega)]
        · rw [if_neg hc, if_neg hc]
          rw [ih f' rest (by omega) (by omega)]

theorem replaceAll_nil (pat repl : List Char) : replaceAll pat repl [] = [] := rfl

theorem replaceAll_cons (pat repl : List Char) (c : Char) (rest : List Char) :
    replaceAll pat repl (c :: rest) =
      if pat ≠ [] ∧ pat.isPrefixOf (c :: rest) then
        repl ++ replaceAll pat repl (rest.drop (pat.length - 1))
      else
        c :: replaceAll pat repl rest := by
  show replaceAllGo pat repl (rest.length + 1) (c :: rest) = _
  simp only [replaceAllGo]
  by_cases hc : pat ≠ [] ∧ pat.isPrefixOf (c :: rest)
  · rw [if_pos hc, if_pos hc]
    unfold replaceAll
    rw [replaceAllGo_irrel pat repl rest.length (rest.drop (pat.length - 1)).length
      (rest.drop (pat.length - 1)) (by simp only [List.length_drop]; omega) (by omega)]
  · rw [if_neg hc, if_neg hc]
    rfl

/-- The reserved key skipped by variable substitution (source:
`if key == "Topic": continue`). -/
def topicKey : List Char := ['T', 'o', 'p', 'i', 'c']

/-- The selector key driving conditionals (`variables.get('Category', '')`). -/
def categoryKey : List Char := ['C', 'a', 't', 'e', 'g', 'o', 'r', 'y']

/-- Placeholder syntax for a variable: the pattern
`\[\[\.key\]\]` built by `_substitute_variables`. -/
def varMark (key : List Char) : List Char :=
  ['[', '[', '.'] ++ key ++ [']', ']']

/-- Stage 2 of `TemplateProcessor.process`: `_substitute_variables`.
Bindings are an association list in dictionary insertion order; the
`Topic` key is skipped, every other binding replaces all occurrences of
its placeholder. -/
def substitute_variables (vars : List (List Char × List Char)) (t : List Char) :
    List Char :=
  match vars with
  | [] => t
  | (k, v) :: rest =>
    if k = topicKey then substitute_variables rest t
    else substitute_variables rest (replaceAll (varMark k) v t)

/-- Python `dict.get`: first binding of the key, if any. -/
def dict_get (vars : List (List Char × List Char)) (key : List Char) :
    Option (List Char) :=
  match vars with
  | [] => none
  | (k, v) :: rest => if k = key then some v else dict_get rest key

/-- `variables.get('Category', '')`. -/
def category_of (vars : List (List Char × List Char)) : List Char :=
  (dict_get vars categoryKey).getD []

/-- Literal text of the opening of the conditional pattern
`\[\[if \.Category == "(.*?)"\]\]`. -/
def openMark : List Char :=
  ['[', '[', 'i', 'f', ' ', '.', 'C', 'a', 't', 'e', 'g', 'o', 'r', 'y',
   ' ', '=', '=', ' ', '"']

/-- The closing of the if clause: the quote and double bracket after the
lazily matched literal. -/
def quoteMark : List Char := ['"', ']', ']']

/-- The block terminator `[[end]]`. -/
def endMark : List Char := ['[', '[', 'e', 'n', 'd', ']', ']']

/-- The text `[[else`, the opening shared by `else`/`else if` markers and
the first alternative of the lookahead `(?=\[\[else|\[\[end\]\])`. -/
def elseMark : List Char := ['[', '[', 'e', 'l', 's', 'e']

/-- The bare else marker `[[else]]`. -/
def elseLitMark : List Char := ['[', '[', 'e', 'l', 's', 'e', ']', ']']

/-- The marker `[[else if .Category == "cat"]]` built for the bound
category (source builds it with `re.escape(category)`, so it is this
literal text). -/
def elseIfMark (cat : List Char) : List Char :=
  ['[', '[', 'e', 'l', 's', 'e', ' ', 'i', 'f', ' ', '.', 'C', 'a', 't',
   'e', 'g', 'o', 'r', 'y', ' ', '=', '=', ' ', '"'] ++ cat ++ ['"', ']', ']']

/-- A double closing bracket, the end of a lazily matched marker. -/
def closeBr : List Char := [']', ']']

/-- One match of `re.sub(r'\[\[else.*?\]\].*?(?=\[\[end\]\]|\Z)', '', c)`:
`none` when the pattern has no match at all; `some (pre, cont)` when the
leftmost match starts after `pre`, and scanning continues on `cont` (the
text from the looked-ahead `[[end]]` on, or nothing when the lazy tail ran
to the end of the text). -/
def remove_else_step (content : List Char) : Option (List Char × List Char) :=
  match splitFirst elseMark content with
  | none => none
  | some (pre, r) =>
    match splitFirst closeBr r with
    | none => none
    | some (_, r2) =>
      match splitFirst endMark r2 with
      | none => some (pre, [])
      | some (_, r3) => some (pre, endMark ++ r3)

theorem remove_else_step_lt {content pre cont : List Char}
    (h : remove_else_step content = some (pre, cont)) :
    cont.length < content.length := by
  unfold remove_else_step at h
  split at h
  · simp at h
  · next pre1 r h1 =>
    split at h
    · simp at h
    · next x r2 h2 =>
      have e1 := splitFirst_ne_eq (by simp [elseMark]) h1
      have e2 := splitFirst_ne_eq (by simp [closeBr]) h2
      split at h
      · next h3 =>
        simp only [Option.some.injEq, Prod.mk.injEq] at h
        obtain ⟨rfl, rfl⟩ := h
        subst e2; subst e1
        simp [elseMark, closeBr]
      · next y r3 h3 =>
        simp only [Option.some.injEq, Prod.mk.injEq] at h
        obtain ⟨rfl, rfl⟩ := h
        have e3 := splitFirst_ne_eq (by simp [endMark]) h3
        subst e3; subst e2; subst e1
        simp [elseMark, closeBr, endMark]
        omega

/-- Fueled worker for `remove_else_blocks`. -/
def remove_else_blocksGo : Nat → List Char → List Char
  | 0, content => content
  | fuel + 1, content =>
    match remove_else_step content with
    | none => content
    | some (pre, cont) => pre ++ remove_else_blocksGo fuel cont

/-- Model of `re.sub(r'\[\[else.*?\]\].*?(?=\[\[end\]\]|\Z)', '', content)`
in the matched-if branch of `replace_conditional`: repeatedly erase, left
to right, each stretch from a completed `[[else` marker up to the next
`[[end]]` (not consumed) or the end of the text. -/
def remove_else_blocks (content : List Char) : List Char :=
  remove_else_blocksGo (content.length + 1) content

theorem remove_else_blocksGo_irrel :
    ∀ (f f' : Nat) (s : List Char), s.length < f → s.length < f' →
      remove_else_blocksGo f s = remove_else_blocksGo f' s := by
  intro f
  induction f with
  | zero => intro f' s hf; omega
  | succ f ih =>
    intro f' s hf hf'
    cases f' with
    | zero => omega
    | succ f' =>
      simp only [remove_else_blocksGo]
      split


      · rfl
      · next pre cont h =>
        have hlt := remove_else_step_lt h
        rw [ih f' cont (by omega) (by omega)]

theorem remove_else_blocks_eq (content : List Char) :
    remove_else_blocks content =
      match remove_else_step content with
      | none => content
      | some (pre, cont) => pre ++ remove_else_blocks cont := by
  show remove_else_blocksGo (content.length + 1) content = _
  simp only [remove_else_blocksGo]
  split
  · rfl
  · next pre cont h =>
    have hlt := remove_else_step_lt h
    unfold remove_else_blocks
    rw [remove_else_blocksGo_irrel content.length (cont.length + 1) cont
      (by omega) (by omega)]

/-- The lazy body of an else-if clause: everything up to the first
position where the lookahead `(?=\[\[else|\[\[end\]\])` holds; `none`
when no such position exists (the regex then fails). -/
def lookahead_body (r : List Char) : Option (List Char) :=
  match splitFirst elseMark r, splitFirst endMark r with
  | some (a, _), some (b, _) => some (if a.length ≤ b.length then a else b)
  | some (a, _), none => some a
  | none, some (b, _) => some b
  | none, none => none

/-- The body of a bare `[[else]]` clause: text after the first `[[else]]`
up to the next `[[end]]` or the end of the content (lookahead
`(?=\[\[end\]\]|\Z)`). -/
def bare_else_body (content : List Char) : Option (List Char) :=
  match splitFirst elseLitMark content with
  | none => none
  | some (_, r) =>
    match splitFirst endMark r with
    | some (b, _) => some b
    | none => some r

/-- The replacement function `replace_conditional` used by
`_process_conditionals` for one matched `[[if .Category == "lit"]] content
[[end]]` block. -/
def replace_conditional (category lit content : List Char) : List Char :=
  if lit = category then
    pyStrip (remove_else_blocks content)
  else
    match splitFirst (elseIfMark category) content with
    | some (_, r) =>
      match lookahead_body r with
      | some body => pyStrip body
      | none =>
        match bare_else_body content with
        | some b => pyStrip b
        | none => []
    | none =>
      match bare_else_body content with
      | some b => pyStrip b
      | none => []

/-- Leftmost match of the outer conditional pattern
`\[\[if \.Category == "(.*?)"\]\](.*?)\[\[end\]\]` (DOTALL): the first
opening marker, its lazily matched literal (up to the first closing
quote-bracket) and content (up to the first terminator), and the rest of
the text after the match. -/
def findCond (t : List Char) : Option (List Char × List Char × List Char × List Char) :=
  match splitFirst openMark t with
  | none => none
  | some (pre, r1) =>
    match splitFirst quoteMark r1 with
    | none => none
    | some (lit, r2) =>
      match splitFirst endMark r2 with
      | none => none
      | some (content, rest) => some (pre, lit, content, rest)

theorem findCond_rest_lt {t pre lit content rest : List Char}
    (h : findCond t = some (pre, lit, content, rest)) :
    rest.length < t.length := by
  unfold findCond at h
  split at h
  · simp at h
  · next pre1 r1 h1 =>
    split at h
    · simp at h
    · next lit1 r2 h2 =>
      split at h
      · simp at h
      · next content1 rest1 h3 =>
        simp only [Option.some.injEq, Prod.mk.injEq] at h
        obtain ⟨rfl, rfl, rfl, rfl⟩ := h
        have e1 := splitFirst_ne_eq (by simp [openMark]) h1
        have e2 := splitFirst_ne_eq (by simp [quoteMark]) h2
        have e3 := splitFirst_ne_eq (by simp [endMark]) h3
        subst e3; subst e2; subst e1
        simp [openMark, quoteMark, endMark]
        omega

/-- Fueled worker for `process_conditionals`. -/
def process_conditionalsGo (category : List Char) : Nat → List Char → List Char
  | 0, t => t
  | fuel + 1, t =>
    match findCond t with
    | none => t
    | some (pre, lit, content, rest) =>
      pre ++ replace_conditional category lit content ++
        process_conditionalsGo category fuel rest

/-- Stage 3 of `TemplateProcessor.process`: `_process_conditionals`,
i.e. `re.sub(pattern, replace_conditional, text, flags=re.DOTALL)` with
the pattern above: resolve each block left to right, continuing after the
end of each match. -/
def process_conditionals (category t : List Char) : List Char :=
  process_conditionalsGo category (t.length + 1) t

theorem process_conditionalsGo_irrel (category : List Char) :
    ∀ (f f' : Nat) (t : List Char), t.length < f → t.length < f' →
      process_conditionalsGo category f t = process_conditionalsGo category f' t := by
  intro f
  induction f with
  | zero => intro f' t hf; omega
  | succ f ih =>
    intro f' t hf hf'
    cases f' with
    | zero => omega
    | succ f' =>
      simp only [process_conditionalsGo]
      split
      · rfl
      · next pre lit content rest h =>
        have hlt := findCond_rest_lt h
        rw [ih f' rest (by omega) (by omega)]

theorem process_conditionals_eq (category t : List Char) :
    process_conditionals category t =
      match findCond t with
      | none => t
      | some (pre, lit, content, rest) =>
        pre ++ replace_conditional category lit content ++
          process_conditionals category rest := by
  show process_conditionalsGo category (t.length + 1) t = _
  simp only [process_conditionalsGo]
  split
  · rfl
  · next pre lit content rest h =>
    have hlt := findCond_rest_lt h
    unfold process_conditionals
    rw [process_conditionalsGo_irrel category t.length (rest.length + 1) rest
      (by omega) (by omega)]

/-- Characters other than the newline. -/
def notNl (c : Char) : Bool := !(c == '\n')

theorem notNl_of_ne {c : Char} (h : c ≠ '\n') : notNl c = true := by
  simp [notNl, h]

theorem takeWhile_append_all {p : Char → Bool} {a : List Char}
    (h : ∀ c ∈ a, p c = true) (b : List Char) :
    (a ++ b).takeWhile p = a ++ b.takeWhile p := by
  induction a with
  | nil => simp
  | cons c a2 ih =>
    have hc : p c = true := h c (by simp)
    simp only [List.cons_append, List.takeWhile_cons, hc, if_true]
    rw [ih (fun x hx => h x (by simp [hx]))]

theorem dropWhile_append_all {p : Char → Bool} {a : List Char}
    (h : ∀ c ∈ a, p c = true) (b : List Char) :
    (a ++ b).dropWhile p = b.dropWhile p := by
  induction a with
  | nil => simp
  | cons c a2 ih =>
    have hc : p c = true := h c (by simp)
    simp only [List.cons_append, List.dropWhile, hc]
    exact ih (fun x hx => h x (by simp [hx]))

/-- One match attempt of `re.sub(r'\[\[xxx.*?\]\]', '', t)` at the current
position, for the opening marker `op0 :: opTail`.  The pattern carries no
`re.DOTALL` flag, so its lazy interior cannot cross a newline: the attempt
succeeds only when the opening at the head of `t` is completed by a `]]`
before the end of the line, and then returns the text after the match;
otherwise the scan advances by one character. -/
def lazy_marker_step (op0 : Char) (opTail t : List Char) : Option (List Char) :=
  if (op0 :: opTail).isPrefixOf t then
    match splitFirst closeBr ((t.drop (opTail.length + 1)).takeWhile notNl) with
    | some (_, r2) => some (r2 ++ (t.drop (opTail.length + 1)).dropWhile notNl)
    | none => none
  else none

theorem lazy_marker_step_lt {op0 : Char} {opTail t cont : List Char}
    (h : lazy_marker_step op0 opTail t = some cont) :
    cont.length < t.length := by
  unfold lazy_marker_step at h
  split at h
  · next hpre =>
    split at h
    · next x r2 h2 =>
      simp only [Option.some.injEq] at h
      subst h
      have e1 := isPrefixOf_eq_append hpre
      have l1 := congrArg List.length e1
      simp only [List.length_append, List.length_cons] at l1
      have e2 := splitFirst_ne_eq (by simp [closeBr] : closeBr ≠ []) h2
      have l2 := congrArg List.length e2
      simp only [List.length_append, closeBr, List.length_cons,
        List.length_nil] at l2
      have e3 := List.takeWhile_append_dropWhile (p := notNl)
        (l := t.drop (opTail.length + 1))
      have l3 := congrArg List.length e3
      simp only [List.length_append] at l3
      simp only [List.length_append, List.length_drop] at l1 l2 l3 ⊢
      omega
    · simp at h
  · simp at h

/-- Fueled worker for `remove_lazy_marker`. -/
def remove_lazy_markerGo (op0 : Char) (opTail : List Char) :
    Nat → List Char → List Char
  | 0, t => t
  | _ + 1, [] => []
  | fuel + 1, c :: rest =>
    match lazy_marker_step op0 opTail (c :: rest) with
    | some cont => remove_lazy_markerGo op0 opTail fuel cont
    | none => c :: remove_lazy_markerGo op0 opTail fuel rest

/-- One pass of `re.sub(r'\[\[xxx.*?\]\]', '', t)` for an opening marker
`op0 :: opTail`, without the `re.DOTALL` flag: scanning left to right,
each occurrence of the opening completed by a `]]` later on the same line
is removed up to and including that `]]`; an occurrence of the opening
whose line holds no later `]]` matches nothing (the lazy interior cannot
cross the newline) and the scan moves on by one character. -/
def remove_lazy_marker (op0 : Char) (opTail t : List Char) : List Char :=
  remove_lazy_markerGo op0 opTail (t.length + 1) t

theorem remove_lazy_markerGo_irrel (op0 : Char) (opTail : List Char) :
    ∀ (f f' : Nat) (t : List Char), t.length < f → t.length < f' →
      remove_lazy_markerGo op0 opTail f t = remove_lazy_markerGo op0 opTail f' t := by
  intro f
  induction f with
  | zero => intro f' t hf; omega
  | succ f ih =>
    intro f' t hf hf'
    cases f' with
    | zero => omega
    | succ f' =>
      cases t with
      | nil => rfl
      | cons c rest =>
        simp only [remove_lazy_markerGo]
        simp only [List.length_cons] at hf hf'
        split
        · next cont h =>
          have hlt := lazy_marker_step_lt h
          simp only [List.length_cons] at hlt
          rw [ih f' cont (by omega) (by omega)]
        · rw [ih f' rest (by omega) (by omega)]

theorem remove_lazy_marker_cons (op0 : Char) (opTail : List Char)
    (c : Char) (rest : List Char) :
    remove_lazy_marker op0 opTail (c :: rest) =
      match lazy_marker_step op0 opTail (c :: rest) with
      | some cont => remove_lazy_marker op0 opTail cont
      | none => c :: remove_lazy_marker op0 opTail rest := by
  show remove_lazy_markerGo op0 opTail (rest.length + 1 + 1) (c :: rest) = _
  simp only [remove_lazy_markerGo]
  split
  · next cont h =>
    have hlt := lazy_marker_step_lt h
    simp only [List.length_cons] at hlt
    unfold remove_lazy_marker
    rw [remove_lazy_markerGo_irrel op0 opTail (rest.length + 1) (cont.length + 1) cont
      (by omega) (by omega)]
  · rfl

/-- Fueled worker for `collapse_blank_lines`. -/
def collapse_blank_linesGo : Nat → List Char → List Char
  | _, [] => []
  | 0, s => s
  | fuel + 1, c :: rest =>
    if c = '\n' ∧ ['\n', '\n'].isPrefixOf rest then
      '\n' :: '\n' :: collapse_blank_linesGo fuel (rest.dropWhile (fun x => x = '\n'))
    else
      c :: collapse_blank_linesGo fuel rest

/-- Model of `re.sub(r'\n\n\n+', '\n\n', text)`: every run of three or
more consecutive newline characters is replaced (greedily, leftmost
first) by exactly two newlines. -/
def collapse_blank_lines (s : List Char) : List Char :=
  collapse_blank_linesGo s.length s

theorem collapse_blank_linesGo_irrel :
    ∀ (f f' : Nat) (s : List Char), s.length ≤ f → s.length ≤ f' →
      collapse_blank_linesGo f s = collapse_blank_linesGo f' s := by
  intro f
  induction f with
  | zero =>
    intro f' s hf hf'
    have : s = [] := List.eq_nil_of_length_eq_zero (by omega)
    subst this
    cases f' <;> rfl
  | succ f ih =>
    intro f' s hf hf'
    cases s with
    | nil => cases f' <;> rfl
    | cons c rest =>
      cases f' with
      | zero => simp at hf'
      | succ f' =>
        simp only [collapse_blank_linesGo]
        simp only [List.length_cons] at hf hf'
        by_cases hc : c = '\n' ∧ ['\n', '\n'].isPrefixOf rest
        · rw [if_pos hc, if_pos hc]
          have hd := dropWhile_length_le (fun x => x = '\n') rest
          rw [ih f' (rest.dropWhile (fun x => x = '\n')) (by omega) (by omega)]
        · rw [if_neg hc, if_neg hc]
          rw [ih f' rest (by omega) (by omega)]

theorem collapse_blank_lines_nil : collapse_blank_lines [] = [] := rfl

theorem collapse_blank_lines_cons (c : Char) (rest : List Char) :
    collapse_blank_lines (c :: rest) =
      if c = '\n' ∧ ['\n', '\n'].isPrefixOf rest then
        '\n' :: '\n' :: collapse_blank_lines (rest.dropWhile (fun x => x = '\n'))
      else
        c :: collapse_blank_lines rest := by
  show collapse_blank_linesGo (rest.length + 1) (c :: rest) = _
  simp only [collapse_blank_linesGo]
  by_cases hc : c = '\n' ∧ ['\n', '\n'].isPrefixOf rest
  · rw [if_pos hc, if_pos hc]
    have hd := dropWhile_length_le (fun x => x = '\n') rest
    unfold collapse_blank_lines
    rw [collapse_blank_linesGo_irrel rest.length
      (rest.dropWhile (fun x => x = '\n')).length
      (rest.dropWhile (fun x => x = '\n')) (by omega) (by omega)]
  · rw [if_neg hc, if_neg hc]
    rfl

/-- Stage 4 of `TemplateProcessor.process`: `_cleanup_markers` — strip
leftover `[[if...]]`, `[[else...]]`, `[[end]]` markers in that order (the
two lazy patterns carry no `re.DOTALL` flag, so a marker whose interior
spans a newline is left in place), collapse newline runs, and strip the
result. -/
def cleanup_markers (t : List Char) : List Char :=
  pyStrip (collapse_blank_lines (replaceAll endMark []
    (remove_lazy_marker '[' ['[', 'e', 'l', 's', 'e']
      (remove_lazy_marker '[' ['[', 'i', 'f'] t))))

/-- `TemplateProcessor.process`: the four-stage pipeline. -/
def process (vars : List (List Char × List Char)) (template : List Char) :
    List Char :=
  cleanup_markers (process_conditionals (category_of vars)
    (substitute_variables vars (remove_comments template)))

/-- Failure signalled by `_load_template` when the template file does not
exist (Python `FileNotFoundError`). -/
inductive TemplateError where
  | notFound
deriving DecidableEq

/-- `TemplateProcessor._load_template`, with the filesystem abstracted as
a partial map from paths to contents: raise when the path does not exist,
return the content otherwise. -/
def load_template (fs : List Char → Option (List Char)) (path : List Char) :
    Except TemplateError (List Char) :=
  match fs path with
  | none => Except.error TemplateError.notFound
  | some content => Except.ok content

example :
    process [(categoryKey, "Science".toList), (topicKey, "Lasers".toList)]
      ("/// c\nTopic: [[.Topic]]\n[[if .Category == \"History\"]]A[[else if .Category == \"Science\"]]B[[else]]C[[end]]").toList
      = ("Topic: [[.Topic]]\nB").toList := by decide

/-! ## Occurrence toolkit

`NoStart pat x y` says no occurrence of `pat` in `x ++ y` starts inside
`x`; it is the hypothesis under which leftmost scans step over `x`. -/

def NoStart (pat x y : List Char) : Prop :=
  ∀ k, k < x.length → pat.isPrefixOf (x.drop k ++ y) = false

theorem noStart_append {pat x x' y : List Char} (h1 : NoStart pat x (x' ++ y))
    (h2 : NoStart pat x' y) : NoStart pat (x ++ x') y := by
  intro k hk
  by_cases hkx : k < x.length
  · have e : (x ++ x').drop k ++ y = x.drop k ++ (x' ++ y) := by
      rw [List.drop_append_eq_append_drop, Nat.sub_eq_zero_of_le (by omega)]
      simp [List.append_assoc]
    rw [e]
    exact h1 k hkx
  · have e : (x ++ x').drop k ++ y = x'.drop (k - x.length) ++ y := by
      rw [List.drop_append_eq_append_drop,
        List.drop_eq_nil_of_le (by omega : x.length ≤ k)]
      simp
    rw [e]
    have : k - x.length < x'.length := by
      simp only [List.length_append] at hk
      omega
    exact h2 (k - x.length) this

theorem noStart_clean {p0 : Char} {pt x y : List Char}
    (hx : ∀ c ∈ x, c ≠ p0) : NoStart (p0 :: pt) x y := by
  induction x with
  | nil => intro k hk; simp at hk
  | cons c xs ih =>
    intro k hk
    cases k with
    | zero =>
      have hc : c ≠ p0 := hx c (by simp)
      simp only [List.drop_zero, List.cons_append, List.isPrefixOf,
        Bool.and_eq_false_iff]
      left
      simp only [beq_eq_false_iff_ne]
      exact fun hcon => hc hcon.symm
    | succ k =>
      have := ih (fun c hc => hx c (by simp [hc])) k (by simpa using hk)
      simpa using this

theorem splitFirst_append_of_noStart {pat x y : List Char}
    (h : NoStart pat x y) :
    splitFirst pat (x ++ y) =
      (splitFirst pat y).map (fun p => (x ++ p.1, p.2)) := by
  induction x with
  | nil =>
    cases hy : splitFirst pat y with
    | none => simp [hy]
    | some p => obtain ⟨a, b⟩ := p; simp [hy]
  | cons c xs ih =>
    have h0 : pat.isPrefixOf (c :: (xs ++ y)) = false := by
      have := h 0 (by simp)
      simpa using this
    have hshift : NoStart pat xs y := by
      intro k hk
      have := h (k + 1) (by simp; omega)
      simpa using this
    simp only [List.cons_append, splitFirst, h0]
    rw [if_neg (by simp [h0])]
    simp only [List.append_eq]
    rw [ih hshift]
    cases hy : splitFirst pat y with
    | none => simp
    | some p => obtain ⟨a, b⟩ := p; simp

theorem isPrefixOf_self_append (p y : List Char) :
    p.isPrefixOf (p ++ y) = true := by
  induction p with
  | nil => simp [List.isPrefixOf]
  | cons c cs ih => simpa [List.isPrefixOf] using ih

theorem splitFirst_self_append {p0 : Char} (pt y : List Char) :
    splitFirst (p0 :: pt) ((p0 :: pt) ++ y) = some ([], y) := by
  simp only [List.cons_append, splitFirst]
  rw [if_pos (by simpa using isPrefixOf_self_append (p0 :: pt) y)]
  simp only [List.length_cons, Nat.add_sub_cancel, List.append_eq]
  rw [show (pt ++ y).drop pt.length = y from List.drop_left pt y]

theorem splitFirst_occ {pat x y : List Char} (hp : pat ≠ [])
    (h : NoStart pat x (pat ++ y)) :
    splitFirst pat (x ++ pat ++ y) = some (x, y) := by
  cases pat with
  | nil => exact absurd rfl hp
  | cons p0 pt =>
    rw [List.append_assoc, splitFirst_append_of_noStart h,
      splitFirst_self_append]
    simp

theorem splitFirst_none_clean {p0 : Char} {pt t : List Char}
    (hx : ∀ c ∈ t, c ≠ p0) : splitFirst (p0 :: pt) t = none := by
  induction t with
  | nil => rfl
  | cons c rest ih =>
    have hc : c ≠ p0 := hx c (by simp)
    simp only [splitFirst]
    rw [if_neg (by simp [List.isPrefixOf, beq_eq_false_iff_ne]; intro hcon; exact absurd hcon.symm hc)]
    rw [ih (fun c hc => hx c (by simp [hc]))]

theorem splitFirst_none_of_noStart {pat t : List Char} (hp : pat ≠ [])
    (h : NoStart pat t []) : splitFirst pat t = none := by
  have := splitFirst_append_of_noStart (y := []) (by simpa using h)
  simp only [List.append_nil] at this
  rw [this]
  cases pat with
  | nil => exact absurd rfl hp
  | cons p0 pt => simp [splitFirst]

theorem replaceAll_append_of_noStart {pat repl x y : List Char}
    (h : NoStart pat x y) :
    replaceAll pat repl (x ++ y) = x ++ replaceAll pat repl y := by
  induction x with
  | nil => simp
  | cons c xs ih =>
    have h0 : pat.isPrefixOf (c :: (xs ++ y)) = false := by
      have := h 0 (by simp)
      simpa using this
    have hshift : NoStart pat xs y := by
      intro k hk
      have := h (k + 1) (by simp; omega)
      simpa using this
    simp only [List.cons_append]
    rw [replaceAll_cons]
    rw [if_neg (by simp [h0])]
    rw [ih hshift]

theorem replaceAll_head_occ {p0 : Char} {pt y : List Char} (repl : List Char) :
    replaceAll (p0 :: pt) repl ((p0 :: pt) ++ y) =
      repl ++ replaceAll (p0 :: pt) repl y := by
  simp only [List.cons_append]
  rw [replaceAll_cons]
  rw [if_pos ⟨by simp, by simpa using isPrefixOf_self_append (p0 :: pt) y⟩]
  simp only [List.length_cons, Nat.add_sub_cancel]
  rw [show (pt ++ y).drop pt.length = y from List.drop_left pt y]

theorem replaceAll_id_of_none {pat repl t : List Char}
    (h : splitFirst pat t = none) : replaceAll pat repl t = t := by
  induction t with
  | nil => rfl
  | cons c rest ih =>
    simp only [splitFirst] at h
    split at h
    · simp at h
    · next hp =>
      rw [replaceAll_cons]
      rw [if_neg (by intro hcon; exact absurd hcon.2 (by simpa using hp))]
      cases hrec : splitFirst pat rest with
      | none => rw [ih hrec]
      | some p => rw [hrec] at h; obtain ⟨a, b⟩ := p; simp at h

/-! ## Concrete scenario of spec section 8 (claims C1, C2) -/

/-- The three-line template of the concrete scenario: a comment line, the
Topic line, and a one-line if/else-if/else block on the category. -/
def c1Template : List Char :=
  ("/// comment\nTopic: [[.Topic]]\n[[if .Category == \"History\"]]Focus: dates and causes.[[else if .Category == \"Science\"]]Focus: evidence and method.[[else]]Focus: general overview.[[end]]").toList

/-- The bindings of the concrete scenario. -/
def c1Vars : List (List Char × List Char) :=
  [(categoryKey, "Science".toList), (topicKey, "Lasers".toList)]

/-- Claim C1 is false as stated: on the concrete template the compiled
output is not the claimed string, because the `Topic` placeholder is never
substituted (the source skips the `Topic` binding). -/
theorem c1_concrete_template_counterexample :
    process c1Vars c1Template ≠ ("Topic: Lasers\nFocus: evidence and method.").toList := by
  decide

/-- Claim C1 (amended): compiling the concrete template with bindings
Category = Science, Topic = Lasers yields the comment line removed and the
Science branch selected, but the Topic placeholder is left verbatim, since
the code exempts the Topic key from substitution (it is sent in the user
message instead). -/
theorem c1_concrete_template_amended :
    process c1Vars c1Template =
      ("Topic: [[.Topic]]\nFocus: evidence and method.").toList := by
  decide

/-- Template exercising both placeholders for claim C2. -/
def c2Template : List Char := ("A: [[.Topic]] B: [[.Category]]").toList

/-- Bindings for claim C2. -/
def c2Vars : List (List Char × List Char) :=
  [(topicKey, "t".toList), (categoryKey, "c".toList)]

/-- Claim C2 is false as stated: stage 2 substitutes the selector key
Category like any other key, and instead exempts the Topic key, so on this
template the Topic placeholder survives while the Category placeholder is
replaced — the opposite of the claimed exemption. -/
theorem c2_substitution_counterexample :
    substitute_variables c2Vars c2Template = ("A: [[.Topic]] B: c").toList ∧
    substitute_variables c2Vars c2Template ≠ ("A: t B: [[.Category]]").toList := by
  exact ⟨by decide, by decide⟩

theorem varMark_cons (k : List Char) :
    varMark k = '[' :: '[' :: '.' :: (k ++ [']', ']']) := rfl

/-- Claim C2 (amended): in stage 2 the substitution-exempt key is `Topic`,
not the selector key: a Topic binding has no effect on the text, while any
other binding (the selector key Category included) replaces the
occurrences of its exact placeholder by its bound value, scanning left to
right. -/
theorem c2_substitution_amended (k v w t a b : List Char)
    (vars : List (List Char × List Char))
    (hk : k ≠ topicKey) (ha : ∀ c ∈ a, c ≠ '[') :
    substitute_variables ((topicKey, w) :: vars) t = substitute_variables vars t ∧
    substitute_variables [(k, v)] (a ++ varMark k ++ b) =
      a ++ (v ++ replaceAll (varMark k) v b) := by
  constructor
  · simp [substitute_variables]
  · show (if k = topicKey then _ else substitute_variables [] (replaceAll (varMark k) v (a ++ varMark k ++ b))) = _
    rw [if_neg hk]
    show replaceAll (varMark k) v (a ++ varMark k ++ b) = _
    rw [List.append_assoc]
    rw [replaceAll_append_of_noStart (by rw [varMark_cons]; exact noStart_clean ha)]
    rw [varMark_cons, replaceAll_head_occ]

/-- Closed witness for the amended claim C2 at concrete inputs. -/
theorem c2_substitution_amended_witness :
    substitute_variables ((topicKey, "w".toList) :: []) ("x: [[.K]]").toList =
        substitute_variables [] ("x: [[.K]]").toList ∧
    substitute_variables [("K".toList, "v".toList)]
        ("x: ".toList ++ varMark ("K".toList) ++ " y".toList) =
      "x: ".toList ++ ("v".toList ++
        replaceAll (varMark ("K".toList)) ("v".toList) (" y".toList)) :=
  c2_substitution_amended ("K".toList) ("v".toList) ("w".toList)
    ("x: [[.K]]").toList ("x: ".toList) (" y".toList) []
    (by decide) (by decide)

/-! ## Claim C8: compilation is a deterministic pure function -/

/-- Claim C8: `process` is a pure function of the template content and the
bindings: two invocations on equal inputs return the identical output
string.  (The shallow embedding is faithful on this point: the Python
`process` method reads only its two inputs, uses no global mutable state,
and performs no I/O.) -/
theorem c8_process_pure (vars1 vars2 : List (List Char × List Char))
    (t1 t2 : List Char) (hv : vars1 = vars2) (ht : t1 = t2) :
    process vars1 t1 = process vars2 t2 := by
  rw [hv, ht]

/-- Closed witness for claim C8 at a concrete input. -/
theorem c8_process_pure_witness :
    process [(categoryKey, "X".toList)] ("hi [[.Category]]").toList =
      process [(categoryKey, "X".toList)] ("hi [[.Category]]").toList :=
  c8_process_pure _ _ _ _ rfl rfl

/-! ## Claim C9: load-time NotFound -/

/-- Claim C9: if the named template source does not exist, loading signals
the NotFound error; if it exists, loading returns its content and no error
is raised. -/
theorem c9_load_template_not_found (fs : List Char → Option (List Char))
    (path : List Char) :
    (fs path = none → load_template fs path = Except.error TemplateError.notFound) ∧
    (∀ content, fs path = some content → load_template fs path = Except.ok content) := by
  constructor
  · intro h
    simp [load_template, h]
  · intro content h
    simp [load_template, h]

/-- Closed witness for claim C9: a filesystem without the path errors, one
with it returns the content. -/
theorem c9_load_template_not_found_witness :
    load_template (fun _ => none) ("a.txt").toList =
        Except.error TemplateError.notFound ∧
    load_template (fun _ => some ("T".toList)) ("a.txt").toList =
        Except.ok ("T".toList) :=
  ⟨(c9_load_template_not_found (fun _ => none) ("a.txt").toList).1 rfl,
   (c9_load_template_not_found (fun _ => some ("T".toList)) ("a.txt").toList).2
     ("T".toList) rfl⟩

/-! ## Claim C7: comment stripping is idempotent -/

theorem splitNl_ne_nil (t : List Char) : splitNl t ≠ [] := by
  induction t with
  | nil => simp [splitNl]
  | cons c rest ih =>
    simp only [splitNl]
    split
    · simp
    · cases hsr : splitNl rest with
      | nil => simp
      | cons l ls => simp

theorem no_nl_of_mem_splitNl (t : List Char) (l : List Char)
    (h : l ∈ splitNl t) : '\n' ∉ l := by
  induction t generalizing l with
  | nil =>
    simp only [splitNl, List.mem_singleton] at h
    subst h
    simp
  | cons c rest ih =>
    simp only [splitNl] at h
    split at h
    · rcases List.mem_cons.mp h with rfl | hmem
      · simp
      · exact ih l hmem
    · next hc =>
      cases hsr : splitNl rest with
      | nil => exact absurd hsr (splitNl_ne_nil rest)
      | cons l0 ls =>
        rw [hsr] at h
        rcases List.mem_cons.mp h with rfl | hmem
        · intro hmem2
          rcases List.mem_cons.mp hmem2 with heq | hmem3
          · exact hc heq.symm
          · exact ih l0 (by rw [hsr]; exact List.mem_cons_self l0 ls) hmem3
        · exact ih l (by rw [hsr]; exact List.mem_cons_of_mem l0 hmem)

theorem splitNl_no_nl {l : List Char} (h : '\n' ∉ l) : splitNl l = [l] := by
  induction l with
  | nil => rfl
  | cons c rest ih =>
    have hc : c ≠ '\n' := fun hcon => h (by simp [hcon])
    simp only [splitNl]
    rw [if_neg hc]
    rw [ih (fun hcon => h (by simp [hcon]))]

theorem splitNl_append_nl {l : List Char} (x : List Char) (h : '\n' ∉ l) :
    splitNl (l ++ '\n' :: x) = l :: splitNl x := by
  induction l with
  | nil => simp [splitNl]
  | cons c rest ih =>
    have hc : c ≠ '\n' := fun hcon => h (by simp [hcon])
    simp only [List.cons_append, splitNl]
    rw [if_neg hc]
    simp only [List.append_eq]
    rw [ih (fun hcon => h (by simp [hcon]))]

theorem splitNl_joinNl {ls : List (List Char)} (hne : ls ≠ [])
    (h : ∀ l ∈ ls, '\n' ∉ l) : splitNl (joinNl ls) = ls := by
  induction ls with
  | nil => exact absurd rfl hne
  | cons l rest ih =>
    cases rest with
    | nil =>
      show splitNl (joinNl [l]) = [l]
      exact splitNl_no_nl (h l (by simp))
    | cons l2 rest2 =>
      show splitNl (l ++ '\n' :: joinNl (l2 :: rest2)) = l :: l2 :: rest2
      rw [splitNl_append_nl _ (h l (by simp))]
      rw [ih (by simp) (fun x hx => h x (List.mem_cons_of_mem l hx))]

/-- Claim C7: comment stripping is idempotent — applying
`_remove_comments` twice yields the same result as applying it once. -/
theorem c7_comment_strip_idempotent (t : List Char) :
    remove_comments (remove_comments t) = remove_comments t := by
  unfold remove_comments
  cases hls : (splitNl t).filter (fun l => !is_comment_line l) with
  | nil => decide
  | cons l0 ls' =>
    have hmem : ∀ l ∈ l0 :: ls', '\n' ∉ l := by
      intro l hl
      have hmem2 : l ∈ (splitNl t).filter (fun l => !is_comment_line l) := by
        rw [hls]; exact hl
      exact no_nl_of_mem_splitNl t l (List.mem_of_mem_filter hmem2)
    rw [splitNl_joinNl (by simp) hmem]
    congr 1
    rw [← hls, List.filter_filter]
    simp

/-! ## Structured conditional blocks: locating markers in well-formed text -/

theorem splitFirst_occ_assoc {pat x y : List Char} (hp : pat ≠ [])
    (h : NoStart pat x (pat ++ y)) :
    splitFirst pat (x ++ (pat ++ y)) = some (x, y) := by
  cases pat with
  | nil => exact absurd rfl hp
  | cons p0 pt =>
    rw [splitFirst_append_of_noStart h, splitFirst_self_append]
    simp

theorem isPrefixOf_append_cancel (P u v : List Char) :
    (P ++ u).isPrefixOf (P ++ v) = u.isPrefixOf v := by
  induction P with
  | nil => rfl
  | cons c cs ih => simpa [List.isPrefixOf] using ih

theorem quoted_lit_div {cat L1 : List Char} (u v : List Char) (hne : cat ≠ L1)
    (hc : ∀ c ∈ cat, c ≠ '"') (hl : ∀ c ∈ L1, c ≠ '"') :
    (cat ++ '"' :: u).isPrefixOf (L1 ++ '"' :: v) = false := by
  induction cat generalizing L1 with
  | nil =>
    cases L1 with
    | nil => exact absurd rfl hne
    | cons b bs =>
      have hb : b ≠ '"' := hl b (by simp)
      simp only [List.nil_append, List.cons_append, List.isPrefixOf,
        Bool.and_eq_false_iff]
      left
      simp only [beq_eq_false_iff_ne]
      exact fun hcon => hb hcon.symm
  | cons a as ih =>
    cases L1 with
    | nil =>
      have ha : a ≠ '"' := hc a (by simp)
      simp only [List.cons_append, List.nil_append, List.isPrefixOf,
        Bool.and_eq_false_iff]
      left
      simp only [beq_eq_false_iff_ne]
      exact ha
    | cons b bs =>
      by_cases hab : a = b
      · subst hab
        have hne2 : as ≠ bs := fun hcon => hne (by rw [hcon])
        simp only [List.cons_append, List.isPrefixOf, beq_self_eq_true,
          Bool.true_and]
        exact ih hne2 (fun c hc2 => hc c (by simp [hc2]))
          (fun c hc2 => hl c (by simp [hc2]))
      · simp only [List.cons_append, List.isPrefixOf, Bool.and_eq_false_iff]
        left
        simp only [beq_eq_false_iff_ne]
        exact hab

/-- Step over a complete two-bracket marker: no occurrence of a pattern
starting with two brackets can begin inside a chunk whose only brackets
are its two leading ones, as soon as the pattern does not match at the
very start (position one is ruled out by the third chunk character not
being a bracket). -/
theorem noStart_two_bracket {p2 : Char} {pt : List Char} {d : Char}
    {x2 y : List Char} (hd : d ≠ '[') (hclean : ∀ c ∈ d :: x2, c ≠ '[')
    (h0 : (('[' : Char) :: '[' :: p2 :: pt).isPrefixOf
      (('[' :: '[' :: d :: x2) ++ y) = false) :
    NoStart ('[' :: '[' :: p2 :: pt) ('[' :: '[' :: d :: x2) y := by
  intro k hk
  match k with
  | 0 => simpa using h0
  | 1 =>
    simp only [List.drop_succ_cons, List.drop_zero, List.cons_append,
      List.isPrefixOf, Bool.and_eq_false_iff]
    right
    left
    simp only [beq_eq_false_iff_ne]
    exact fun hcon => hd hcon.symm
  | k + 2 =>
    simp only [List.drop_succ_cons]
    have hk2 : k < (d :: x2).length := by
      simp only [List.length_cons] at hk ⊢
      omega
    exact noStart_clean hclean k hk2

/-- No occurrence of `[[end]]` starts inside a chunk of the form
`[[el...` with bracket-free interior (an `[[else]]` or `[[else if ...]]`
marker). -/
theorem endMark_noStart_elsechunk {x2 y : List Char}
    (hclean : ∀ c ∈ 'e' :: 'l' :: x2, c ≠ '[') :
    NoStart endMark ('[' :: '[' :: 'e' :: 'l' :: x2) y := by
  have h0 : endMark.isPrefixOf (('[' :: '[' :: 'e' :: 'l' :: x2) ++ y) = false := by
    simp [endMark, List.isPrefixOf]
  exact noStart_two_bracket (by decide) hclean h0

theorem elseLitMark_eq_cons :
    elseLitMark = '[' :: '[' :: 'e' :: 'l' :: ['s', 'e', ']', ']'] := rfl

/-- The fixed characters of an else-if marker after the two brackets and
the `el` discriminator. -/
def elseIfHead : List Char :=
  ['s', 'e', ' ', 'i', 'f', ' ', '.', 'C', 'a', 't', 'e', 'g', 'o', 'r',
   'y', ' ', '=', '=', ' ', '"']

/-- The fixed prefix of an else-if marker up to the opening quote. -/
def elseIfPre : List Char :=
  ['[', '[', 'e', 'l', 's', 'e', ' ', 'i', 'f', ' ', '.', 'C', 'a', 't',
   'e', 'g', 'o', 'r', 'y', ' ', '=', '=', ' ', '"']

theorem elseIfMark_shape (cat : List Char) :
    elseIfMark cat = '[' :: '[' :: 'e' :: 'l' ::
      (elseIfHead ++ (cat ++ quoteMark)) := by
  simp [elseIfMark, elseIfHead, quoteMark]

theorem elseIfMark_decomp (cat : List Char) :
    elseIfMark cat = elseIfPre ++ (cat ++ quoteMark) := by
  simp [elseIfMark, elseIfPre, quoteMark]

theorem elseIfMark_interior_clean {cat : List Char}
    (hcat : ∀ c ∈ cat, c ≠ '[') :
    ∀ c ∈ 'e' :: 'l' :: (elseIfHead ++ (cat ++ quoteMark)), c ≠ '[' := by
  simp only [List.forall_mem_cons, List.forall_mem_append]
  exact ⟨by decide, by decide, by decide, hcat, by decide⟩

theorem endMark_noStart_elseLitMark (y : List Char) :
    NoStart endMark elseLitMark y := by
  rw [elseLitMark_eq_cons]
  exact endMark_noStart_elsechunk (by decide)

theorem endMark_noStart_elseIfMark {cat : List Char} (y : List Char)
    (hcat : ∀ c ∈ cat, c ≠ '[') :
    NoStart endMark (elseIfMark cat) y := by
  rw [elseIfMark_shape]
  exact endMark_noStart_elsechunk (elseIfMark_interior_clean hcat)

/-- `findCond` on a well-formed block: clean prefix, quote-free literal,
and content in which no `[[end]]` occurrence starts. -/
theorem findCond_structured {pre L content rest : List Char}
    (hpre : ∀ c ∈ pre, c ≠ '[')
    (hL : ∀ c ∈ L, c ≠ '"')
    (hcontent : NoStart endMark content (endMark ++ rest)) :
    findCond (pre ++ (openMark ++ (L ++ (quoteMark ++ (content ++ (endMark ++ rest)))))) =
      some (pre, L, content, rest) := by
  have h1 : splitFirst openMark
      (pre ++ (openMark ++ (L ++ (quoteMark ++ (content ++ (endMark ++ rest)))))) =
      some (pre, L ++ (quoteMark ++ (content ++ (endMark ++ rest)))) :=
    splitFirst_occ_assoc (by simp [openMark]) (noStart_clean hpre)
  have h2 : splitFirst quoteMark (L ++ (quoteMark ++ (content ++ (endMark ++ rest)))) =
      some (L, content ++ (endMark ++ rest)) :=
    splitFirst_occ_assoc (by simp [quoteMark]) (noStart_clean hL)
  have h3 : splitFirst endMark (content ++ (endMark ++ rest)) = some (content, rest) :=
    splitFirst_occ_assoc (by simp [endMark]) hcontent
  unfold findCond
  simp only [h1, h2, h3]

/-- `_process_conditionals` resolves a well-formed leftmost block and
continues after it. -/
theorem process_conditionals_block {category pre L content rest : List Char}
    (hpre : ∀ c ∈ pre, c ≠ '[')
    (hL : ∀ c ∈ L, c ≠ '"')
    (hcontent : NoStart endMark content (endMark ++ rest)) :
    process_conditionals category
        (pre ++ (openMark ++ (L ++ (quoteMark ++ (content ++ (endMark ++ rest)))))) =
      pre ++ replace_conditional category L content ++
        process_conditionals category rest := by
  rw [process_conditionals_eq]
  simp only [findCond_structured hpre hL hcontent]

theorem remove_else_blocks_nil : remove_else_blocks [] = [] := rfl

/-- In the matched-if branch, a content of the form
`body ++ [[else]] ++ elseBody` is cut at the else marker and stripped. -/
theorem replace_conditional_matched_else {category body0 bodyE : List Char}
    (hb0 : ∀ c ∈ body0, c ≠ '[') (hbE : ∀ c ∈ bodyE, c ≠ '[') :
    replace_conditional category category (body0 ++ (elseLitMark ++ bodyE)) =
      pyStrip body0 := by
  unfold replace_conditional
  rw [if_pos rfl]
  congr 1
  have e : body0 ++ (elseLitMark ++ bodyE) =
      body0 ++ (elseMark ++ (']' :: ']' :: bodyE)) := by
    simp [elseLitMark, elseMark]
  have hstep : remove_else_step (body0 ++ (elseLitMark ++ bodyE)) = some (body0, []) := by
    unfold remove_else_step
    rw [e]
    have h1 : splitFirst elseMark (body0 ++ (elseMark ++ (']' :: ']' :: bodyE))) =
        some (body0, ']' :: ']' :: bodyE) :=
      splitFirst_occ_assoc (by simp [elseMark]) (noStart_clean hb0)
    have h2 : splitFirst closeBr (']' :: ']' :: bodyE) = some ([], bodyE) :=
      splitFirst_self_append [']'] bodyE
    have h3 : splitFirst endMark bodyE = none := splitFirst_none_clean hbE
    simp only [h1, h2, h3]
  rw [remove_else_blocks_eq]
  simp only [hstep, remove_else_blocks_nil, List.append_nil]

/-- No occurrence of the empty-literal else-if marker starts in a content
of the form `body ++ [[else]] ++ elseBody`. -/
theorem elseIfMark_empty_noStart_elseLitMark (y : List Char) :
    NoStart (elseIfMark []) elseLitMark y := by
  rw [elseLitMark_eq_cons]
  refine noStart_two_bracket (by decide) (by decide) ?_
  simp [elseIfMark, List.isPrefixOf]

theorem elseIfMark_empty_no_occ {body0 bodyE : List Char}
    (hb0 : ∀ c ∈ body0, c ≠ '[') (hbE : ∀ c ∈ bodyE, c ≠ '[') :
    splitFirst (elseIfMark []) (body0 ++ (elseLitMark ++ bodyE)) = none := by
  refine splitFirst_none_of_noStart (by simp [elseIfMark]) ?_
  refine noStart_append (noStart_clean hb0) ?_
  exact noStart_append (elseIfMark_empty_noStart_elseLitMark _) (noStart_clean hbE)

/-- With no matching clause, a bare else body is emitted (trimmed). -/
theorem replace_conditional_bare_else {category L body0 bodyE : List Char}
    (hne : L ≠ category)
    (hb0 : ∀ c ∈ body0, c ≠ '[') (hbE : ∀ c ∈ bodyE, c ≠ '[')
    (hno : splitFirst (elseIfMark category) (body0 ++ (elseLitMark ++ bodyE)) = none) :
    replace_conditional category L (body0 ++ (elseLitMark ++ bodyE)) =
      pyStrip bodyE := by
  unfold replace_conditional
  rw [if_neg hne]
  have hb : bare_else_body (body0 ++ (elseLitMark ++ bodyE)) = some bodyE := by
    unfold bare_else_body
    have h1 : splitFirst elseLitMark (body0 ++ (elseLitMark ++ bodyE)) =
        some (body0, bodyE) :=
      splitFirst_occ_assoc (by simp [elseLitMark]) (noStart_clean hb0)
    have h2 : splitFirst endMark bodyE = none := splitFirst_none_clean hbE
    simp only [h1, h2]
  simp only [hno, hb]

/-- With no matching clause and no else clause at all, the block resolves
to the empty string. -/
theorem replace_conditional_no_clause {category L body0 : List Char}
    (hne : L ≠ category) (hb0 : ∀ c ∈ body0, c ≠ '[') :
    replace_conditional category L body0 = [] := by
  unfold replace_conditional
  have h1 : splitFirst (elseIfMark category) body0 = none := splitFirst_none_clean hb0
  have h2 : bare_else_body body0 = none := by
    unfold bare_else_body
    have h0 : splitFirst elseLitMark body0 = none := splitFirst_none_clean hb0
    simp only [h0]
  rw [if_neg hne]
  simp only [h1, h2]

/-! ## Claim C10: a missing selector binding behaves as the empty string -/

/-- Claim C10: conditional resolution reads a missing selector binding as
the empty string: in a block whose if literal is the empty string, a
bindings map without the Category key selects the if branch (its body
emitted trimmed, the else branch discarded), exactly as if Category were
bound to the empty string. -/
theorem c10_empty_literal_selects_if (vars : List (List Char × List Char))
    (pre body0 bodyE rest : List Char)
    (hv : dict_get vars categoryKey = none)
    (hpre : ∀ c ∈ pre, c ≠ '[')
    (hb0 : ∀ c ∈ body0, c ≠ '[')
    (hbE : ∀ c ∈ bodyE, c ≠ '[') :
    category_of vars = [] ∧
    process_conditionals (category_of vars)
        (pre ++ openMark ++ quoteMark ++ body0 ++ elseLitMark ++ bodyE ++ endMark ++ rest) =
      pre ++ pyStrip body0 ++ process_conditionals (category_of vars) rest := by
  have hcat : category_of vars = [] := by simp [category_of, hv]
  refine ⟨hcat, ?_⟩
  rw [hcat]
  have hNS : NoStart endMark (body0 ++ (elseLitMark ++ bodyE)) (endMark ++ rest) :=
    noStart_append (noStart_clean hb0)
      (noStart_append (endMark_noStart_elseLitMark _) (noStart_clean hbE))
  have hblock := @process_conditionals_block [] pre []
    (body0 ++ (elseLitMark ++ bodyE)) rest hpre (by simp) hNS
  have e : pre ++ openMark ++ quoteMark ++ body0 ++ elseLitMark ++ bodyE ++ endMark ++ rest =
      pre ++ (openMark ++ ([] ++ (quoteMark ++
        ((body0 ++ (elseLitMark ++ bodyE)) ++ (endMark ++ rest))))) := by
    simp [List.append_assoc]
  rw [e, hblock, replace_conditional_matched_else hb0 hbE]

/-- Closed witness for claim C10. -/
theorem c10_empty_literal_selects_if_witness :
    category_of [(topicKey, "T".toList)] = [] ∧
    process_conditionals (category_of [(topicKey, "T".toList)])
        (("x ").toList ++ openMark ++ quoteMark ++ ("A").toList ++
         elseLitMark ++ ("B").toList ++ endMark ++ (" y").toList) =
      ("x ").toList ++ pyStrip ("A").toList ++
        process_conditionals (category_of [(topicKey, "T".toList)]) (" y").toList :=
  c10_empty_literal_selects_if [(topicKey, "T".toList)]
    ("x ").toList ("A").toList ("B").toList (" y").toList
    (by decide) (by decide) (by decide) (by decide)

/-! ## Claim C4: missing selector key and clause selection -/

/-- Claim C4 is false as stated: with no Category binding, a block whose
if literal is the empty string does not fall through to the bare else —
the if branch matches (the missing binding reads as the empty string). -/
theorem c4_missing_selector_counterexample :
    process [] ("[[if .Category == \"\"]]X[[else]]Y[[end]]").toList = ("X").toList ∧
    process [] ("[[if .Category == \"\"]]X[[else]]Y[[end]]").toList ≠ ("Y").toList := by
  exact ⟨by decide, by decide⟩

/-- Claim C4 (amended): provided the if literal is not the empty string,
a bindings map without the selector key makes the block resolve as if no
if or else-if clause matched: the bare else body is emitted (trimmed) when
present, and the block yields the empty string otherwise.  (The proviso is
forced: a block whose if literal is the empty string matches the missing
binding, which reads as the empty string.) -/
theorem c4_missing_selector_amended (vars : List (List Char × List Char))
    (pre L body0 bodyE rest : List Char)
    (hv : dict_get vars categoryKey = none)
    (hL : L ≠ []) (hLq : ∀ c ∈ L, c ≠ '"')
    (hpre : ∀ c ∈ pre, c ≠ '[')
    (hb0 : ∀ c ∈ body0, c ≠ '[')
    (hbE : ∀ c ∈ bodyE, c ≠ '[') :
    process_conditionals (category_of vars)
        (pre ++ openMark ++ L ++ quoteMark ++ body0 ++ elseLitMark ++ bodyE ++ endMark ++ rest) =
      pre ++ pyStrip bodyE ++ process_conditionals (category_of vars) rest ∧
    process_conditionals (category_of vars)
        (pre ++ openMark ++ L ++ quoteMark ++ body0 ++ endMark ++ rest) =
      pre ++ process_conditionals (category_of vars) rest := by
  have hcat : category_of vars = [] := by simp [category_of, hv]
  rw [hcat]
  constructor
  · have hNS : NoStart endMark (body0 ++ (elseLitMark ++ bodyE)) (endMark ++ rest) :=
      noStart_append (noStart_clean hb0)
        (noStart_append (endMark_noStart_elseLitMark _) (noStart_clean hbE))
    have hblock := @process_conditionals_block [] pre L
      (body0 ++ (elseLitMark ++ bodyE)) rest hpre hLq hNS
    have e : pre ++ openMark ++ L ++ quoteMark ++ body0 ++ elseLitMark ++ bodyE ++ endMark ++ rest =
        pre ++ (openMark ++ (L ++ (quoteMark ++
          ((body0 ++ (elseLitMark ++ bodyE)) ++ (endMark ++ rest))))) := by
      simp [List.append_assoc]
    rw [e, hblock,
      replace_conditional_bare_else hL hb0 hbE (elseIfMark_empty_no_occ hb0 hbE)]
  · have hblock := @process_conditionals_block [] pre L body0 rest hpre hLq
      (noStart_clean hb0)
    have e : pre ++ openMark ++ L ++ quoteMark ++ body0 ++ endMark ++ rest =
        pre ++ (openMark ++ (L ++ (quoteMark ++ (body0 ++ (endMark ++ rest))))) := by
      simp [List.append_assoc]
    rw [e, hblock, replace_conditional_no_clause hL hb0]
    simp

/-- Closed witness for the amended claim C4. -/
theorem c4_missing_selector_amended_witness :
    process_conditionals (category_of [])
        (("p").toList ++ openMark ++ ("Z").toList ++ quoteMark ++ ("A").toList ++
         elseLitMark ++ ("B").toList ++ endMark ++ ("q").toList) =
      ("p").toList ++ pyStrip ("B").toList ++
        process_conditionals (category_of []) ("q").toList ∧
    process_conditionals (category_of [])
        (("p").toList ++ openMark ++ ("Z").toList ++ quoteMark ++ ("A").toList ++
         endMark ++ ("q").toList) =
      ("p").toList ++ process_conditionals (category_of []) ("q").toList :=
  c4_missing_selector_amended [] ("p").toList ("Z").toList ("A").toList
    ("B").toList ("q").toList rfl (by decide) (by decide) (by decide)
    (by decide) (by decide)

/-! ## Claim C3: first matching else-if clause -/

/-- No occurrence of the else-if marker for `cat` starts inside the
else-if marker of a different literal `L1`. -/
theorem elseIfMark_noStart_elseIfMark {cat L1 : List Char} (y : List Char)
    (hne : cat ≠ L1)
    (hcatq : ∀ c ∈ cat, c ≠ '"') (hL1q : ∀ c ∈ L1, c ≠ '"')
    (hL1b : ∀ c ∈ L1, c ≠ '[') :
    NoStart (elseIfMark cat) (elseIfMark L1) y := by
  have h0 : (elseIfMark cat).isPrefixOf ((elseIfMark L1) ++ y) = false := by
    rw [elseIfMark_decomp cat]
    have e2 : (elseIfMark L1) ++ y = elseIfPre ++ ((L1 ++ quoteMark) ++ y) := by
      rw [elseIfMark_decomp L1]
      simp [List.append_assoc]
    rw [e2, isPrefixOf_append_cancel]
    have e3 : cat ++ quoteMark = cat ++ '"' :: [']', ']'] := rfl
    have e4 : (L1 ++ quoteMark) ++ y = L1 ++ '"' :: (']' :: ']' :: y) := by
      simp [quoteMark]
    rw [e3, e4]
    exact quoted_lit_div _ _ hne hcatq hL1q
  rw [elseIfMark_shape L1]
  exact noStart_two_bracket (by decide) (elseIfMark_interior_clean hL1b) h0

/-- The lazy else-if body: in `bodyM ++ [[else]] ++ bodyE` the lookahead
stops at the else marker, so the body is `bodyM`. -/
theorem lookahead_body_else {bodyM bodyE : List Char}
    (hbM : ∀ c ∈ bodyM, c ≠ '[') (hbE : ∀ c ∈ bodyE, c ≠ '[') :
    lookahead_body (bodyM ++ (elseLitMark ++ bodyE)) = some bodyM := by
  unfold lookahead_body
  have e : bodyM ++ (elseLitMark ++ bodyE) =
      bodyM ++ (elseMark ++ (']' :: ']' :: bodyE)) := by
    simp [elseLitMark, elseMark]
  have h1 : splitFirst elseMark (bodyM ++ (elseLitMark ++ bodyE)) =
      some (bodyM, ']' :: ']' :: bodyE) := by
    rw [e]
    exact splitFirst_occ_assoc (by simp [elseMark]) (noStart_clean hbM)
  have h2 : splitFirst endMark (bodyM ++ (elseLitMark ++ bodyE)) = none := by
    refine splitFirst_none_of_noStart (by simp [endMark]) ?_
    exact noStart_append (noStart_clean hbM)
      (noStart_append (endMark_noStart_elseLitMark _) (noStart_clean hbE))
  simp only [h1, h2]

/-- With a non-matching if literal, the first else-if clause whose literal
equals the category wins; its body runs to the next else marker and is
stripped.  The content here holds a non-matching else-if first, then the
matching one, then a bare else. -/
theorem replace_conditional_first_elseif {category L0 L1 body0 body1 bodyM bodyE : List Char}
    (hne0 : L0 ≠ category) (hne1 : category ≠ L1)
    (hcatq : ∀ c ∈ category, c ≠ '"')
    (hL1q : ∀ c ∈ L1, c ≠ '"') (hL1b : ∀ c ∈ L1, c ≠ '[')
    (hb0 : ∀ c ∈ body0, c ≠ '[') (hb1 : ∀ c ∈ body1, c ≠ '[')
    (hbM : ∀ c ∈ bodyM, c ≠ '[') (hbE : ∀ c ∈ bodyE, c ≠ '[') :
    replace_conditional category L0
        (body0 ++ (elseIfMark L1 ++ (body1 ++
          (elseIfMark category ++ (bodyM ++ (elseLitMark ++ bodyE)))))) =
      pyStrip bodyM := by
  unfold replace_conditional
  rw [if_neg hne0]
  have hfind : splitFirst (elseIfMark category)
      (body0 ++ (elseIfMark L1 ++ (body1 ++
        (elseIfMark category ++ (bodyM ++ (elseLitMark ++ bodyE)))))) =
      some (body0 ++ (elseIfMark L1 ++ body1), bodyM ++ (elseLitMark ++ bodyE)) := by
    have e : body0 ++ (elseIfMark L1 ++ (body1 ++
        (elseIfMark category ++ (bodyM ++ (elseLitMark ++ bodyE))))) =
        (body0 ++ (elseIfMark L1 ++ body1)) ++
          (elseIfMark category ++ (bodyM ++ (elseLitMark ++ bodyE))) := by
      simp [List.append_assoc]
    rw [e]
    refine splitFirst_occ_assoc (by simp [elseIfMark]) ?_
    exact noStart_append (noStart_clean hb0)
      (noStart_append (elseIfMark_noStart_elseIfMark _ hne1 hcatq hL1q hL1b)
        (noStart_clean hb1))
  simp only [hfind, lookahead_body_else hbM hbE]

/-- Claim C3 is false as stated: when the matching else-if clause is the
last clause of the block (no bare else after it), the lookahead of the
simplified regex has nothing to stop at, the clause fails to match, and
the block resolves to the empty string instead of the clause body. -/
theorem c3_elseif_counterexample :
    process [(categoryKey, "B".toList)]
        ("[[if .Category == \"A\"]]BodyA[[else if .Category == \"B\"]]BodyB[[end]]").toList = [] ∧
    process [(categoryKey, "B".toList)]
        ("[[if .Category == \"A\"]]BodyA[[else if .Category == \"B\"]]BodyB[[end]]").toList ≠
      ("BodyB").toList := by
  exact ⟨by decide, by decide⟩

/-- Claim C3 (amended): when the if literal does not match and a later
else-if literal equals the bound selector value, the first matching
else-if clause wins and its body is emitted trimmed — provided the
matching clause is followed by a further `[[else` clause (here a bare
else); a matching else-if that is the final clause of the block yields the
empty string instead. -/
theorem c3_elseif_amended (vars : List (List Char × List Char))
    (cat pre L0 L1 body0 body1 bodyM bodyE rest : List Char)
    (hv : dict_get vars categoryKey = some cat)
    (hcatb : ∀ c ∈ cat, c ≠ '[') (hcatq : ∀ c ∈ cat, c ≠ '"')
    (hne0 : L0 ≠ cat) (hL0q : ∀ c ∈ L0, c ≠ '"')
    (hne1 : L1 ≠ cat) (hL1b : ∀ c ∈ L1, c ≠ '[') (hL1q : ∀ c ∈ L1, c ≠ '"')
    (hpre : ∀ c ∈ pre, c ≠ '[')
    (hb0 : ∀ c ∈ body0, c ≠ '[') (hb1 : ∀ c ∈ body1, c ≠ '[')
    (hbM : ∀ c ∈ bodyM, c ≠ '[') (hbE : ∀ c ∈ bodyE, c ≠ '[') :
    process_conditionals (category_of vars)
        (pre ++ openMark ++ L0 ++ quoteMark ++ body0 ++ elseIfMark L1 ++ body1 ++
         elseIfMark cat ++ bodyM ++ elseLitMark ++ bodyE ++ endMark ++ rest) =
      pre ++ pyStrip bodyM ++ process_conditionals (category_of vars) rest := by
  have hcat : category_of vars = cat := by simp [category_of, hv]
  rw [hcat]
  have hNS : NoStart endMark
      (body0 ++ (elseIfMark L1 ++ (body1 ++
        (elseIfMark cat ++ (bodyM ++ (elseLitMark ++ bodyE))))))
      (endMark ++ rest) :=
    noStart_append (noStart_clean hb0)
      (noStart_append (endMark_noStart_elseIfMark _ hL1b)
        (noStart_append (noStart_clean hb1)
          (noStart_append (endMark_noStart_elseIfMark _ hcatb)
            (noStart_append (noStart_clean hbM)
              (noStart_append (endMark_noStart_elseLitMark _)
                (noStart_clean hbE))))))
  have hblock := @process_conditionals_block cat pre L0
    (body0 ++ (elseIfMark L1 ++ (body1 ++
      (elseIfMark cat ++ (bodyM ++ (elseLitMark ++ bodyE))))))
    rest hpre hL0q hNS
  have e : pre ++ openMark ++ L0 ++ quoteMark ++ body0 ++ elseIfMark L1 ++ body1 ++
      elseIfMark cat ++ bodyM ++ elseLitMark ++ bodyE ++ endMark ++ rest =
      pre ++ (openMark ++ (L0 ++ (quoteMark ++
        ((body0 ++ (elseIfMark L1 ++ (body1 ++
          (elseIfMark cat ++ (bodyM ++ (elseLitMark ++ bodyE)))))) ++
         (endMark ++ rest))))) := by
    simp [List.append_assoc]
  rw [e, hblock,
    replace_conditional_first_elseif hne0 (Ne.symm hne1) hcatq hL1q hL1b
      hb0 hb1 hbM hbE]

/-- Closed witness for the amended claim C3. -/
theorem c3_elseif_amended_witness :
    process_conditionals (category_of [(categoryKey, "B".toList)])
        (("p").toList ++ openMark ++ ("A").toList ++ quoteMark ++ ("x").toList ++
         elseIfMark ("C".toList) ++ ("y").toList ++ elseIfMark ("B".toList) ++
         (" M ").toList ++ elseLitMark ++ ("z").toList ++ endMark ++ ("q").toList) =
      ("p").toList ++ pyStrip (" M ").toList ++
        process_conditionals (category_of [(categoryKey, "B".toList)]) ("q").toList :=
  c3_elseif_amended [(categoryKey, "B".toList)] ("B".toList) ("p").toList
    ("A").toList ("C".toList) ("x").toList ("y").toList (" M ").toList
    ("z").toList ("q").toList rfl (by decide) (by decide) (by decide)
    (by decide) (by decide) (by decide) (by decide) (by decide) (by decide)
    (by decide) (by decide) (by decide)

/-! ## Claim C6: blank-line collapse -/

/-- A run of three newline characters, the trigger of the collapse regex
(three newline characters delimit two blank lines; four or more blank
lines contain this pattern as well). -/
def tripleNl : List Char := ['\n', '\n', '\n']

theorem splitFirst_cons_none {pat : List Char} {c : Char} {rest : List Char}
    (h : splitFirst pat (c :: rest) = none) : splitFirst pat rest = none := by
  simp only [splitFirst] at h
  split at h
  · simp at h
  · cases hrec : splitFirst pat rest with
    | none => rfl
    | some p => rw [hrec] at h; obtain ⟨x, y⟩ := p; simp at h

theorem splitFirst_none_not_pre {pat : List Char} {c : Char} {rest : List Char}
    (h : splitFirst pat (c :: rest) = none) :
    pat.isPrefixOf (c :: rest) = false := by
  simp only [splitFirst] at h
  split at h
  · simp at h
  · next hp => exact Bool.eq_false_iff.mpr hp

/-- Text with no three-newline run is left unchanged by the collapse. -/
theorem collapse_id {t : List Char} (h : splitFirst tripleNl t = none) :
    collapse_blank_lines t = t := by
  induction t with
  | nil => rfl
  | cons c rest ih =>
    rw [collapse_blank_lines_cons]
    by_cases hc : c = '\n' ∧ ['\n', '\n'].isPrefixOf rest
    · exfalso
      obtain ⟨rfl, hpre⟩ := hc
      have h2 := splitFirst_none_not_pre h
      simp [tripleNl, List.isPrefixOf, hpre] at h2
    · rw [if_neg hc, ih (splitFirst_cons_none h)]

theorem dropWhile_nl_replicate (m : Nat) {b : List Char}
    (hb : b.head? ≠ some '\n') :
    (List.replicate m '\n' ++ b).dropWhile (fun x => x = '\n') = b := by
  induction m with
  | zero =>
    cases b with
    | nil => rfl
    | cons c bs =>
      have hc : c ≠ '\n' := by
        intro hcon
        exact hb (by simp [hcon])
      simp [List.dropWhile, hc]
  | succ m ih =>
    rw [List.replicate_succ, List.cons_append]
    exact ih

/-- The collapse replaces a maximal newline run of length at least three,
sitting between text free of other three-newline runs, by exactly two
newlines. -/
theorem collapse_append_run {a b : List Char} (k : Nat) (hk : 3 ≤ k)
    (ha3 : splitFirst tripleNl a = none)
    (halast : a.getLast? ≠ some '\n')
    (hb3 : splitFirst tripleNl b = none)
    (hbhead : b.head? ≠ some '\n') :
    collapse_blank_lines (a ++ List.replicate k '\n' ++ b) =
      a ++ '\n' :: '\n' :: b := by
  induction a with
  | nil =>
    obtain ⟨m, rfl⟩ : ∃ m, k = m + 3 := ⟨k - 3, by omega⟩
    have e : List.replicate (m + 3) '\n' = '\n' :: '\n' :: '\n' :: List.replicate m '\n' := by
      rw [show m + 3 = (m + 2) + 1 from rfl, List.replicate_succ,
        show m + 2 = (m + 1) + 1 from rfl, List.replicate_succ,
        List.replicate_succ]
    simp only [List.nil_append, e, List.cons_append]
    rw [collapse_blank_lines_cons]
    rw [if_pos ⟨rfl, by simp [List.isPrefixOf]⟩]
    rw [show ('\n' :: '\n' :: (List.replicate m '\n' ++ b)).dropWhile (fun x => x = '\n') =
        (List.replicate (m + 2) '\n' ++ b).dropWhile (fun x => x = '\n') by
      rw [show m + 2 = (m + 1) + 1 from rfl, List.replicate_succ, List.replicate_succ]
      simp]
    rw [dropWhile_nl_replicate (m + 2) hbhead, collapse_id hb3]
  | cons c a' ih =>
    have hrepne : List.replicate k '\n' ≠ [] := by
      intro hcon
      have := congrArg List.length hcon
      simp at this
      omega
    simp only [List.cons_append]
    rw [collapse_blank_lines_cons]
    by_cases hc : c = '\n' ∧ ['\n', '\n'].isPrefixOf (a' ++ List.replicate k '\n' ++ b)
    · exfalso
      obtain ⟨rfl, hpre⟩ := hc
      cases a' with
      | nil => exact halast (by simp)
      | cons d a'' =>
        simp only [List.cons_append, List.isPrefixOf, Bool.and_eq_true,
          beq_iff_eq] at hpre
        obtain ⟨rfl, hpre2⟩ := hpre
        cases a'' with
        | nil => exact halast (by simp)
        | cons e a3 =>
          simp only [List.cons_append, List.isPrefixOf, Bool.and_eq_true,
            beq_iff_eq] at hpre2
          obtain ⟨rfl, -⟩ := hpre2
          have h2 := splitFirst_none_not_pre ha3
          simp [tripleNl, List.isPrefixOf] at h2
    · rw [if_neg hc]
      have ha'3 : splitFirst tripleNl a' = none := splitFirst_cons_none ha3
      have ha'last : a'.getLast? ≠ some '\n' := by
        cases a' with
        | nil => simp
        | cons d a'' =>
          rw [show (c :: d :: a'').getLast? = (d :: a'').getLast? from
            List.getLast?_cons_cons] at halast
          exact halast
      rw [ih ha'3 ha'last]

theorem pyStrip_eq_self {t : List Char}
    (h1 : ∀ c, t.head? = some c → isPySpace c = false)
    (h2 : ∀ c, t.getLast? = some c → isPySpace c = false) : pyStrip t = t := by
  unfold pyStrip
  have e1 : t.dropWhile isPySpace = t := by
    cases t with
    | nil => rfl
    | cons c rest => simp [List.dropWhile, h1 c rfl]
  rw [e1]
  have e2 : t.reverse.dropWhile isPySpace = t.reverse := by
    cases ht : t.reverse with
    | nil => rfl
    | cons c rest =>
      have hlast : t.getLast? = some c := by
        rw [← List.head?_reverse, ht]
        rfl
      simp [List.dropWhile, h2 c hlast]
  rw [e2, List.reverse_reverse]

theorem remove_lazy_marker_id {op0 : Char} {opTail t : List Char}
    (h : splitFirst (op0 :: opTail) t = none) :
    remove_lazy_marker op0 opTail t = t := by
  induction t with
  | nil => rfl
  | cons c rest ih =>
    have hp := splitFirst_none_not_pre h
    have hstep : lazy_marker_step op0 opTail (c :: rest) = none := by
      unfold lazy_marker_step
      rw [hp]
      simp
    rw [remove_lazy_marker_cons]
    simp only [hstep]
    rw [ih (splitFirst_cons_none h)]

/-- Claim C6: a text that reaches stage 4 with a maximal run of four or
more blank lines (five or more newline characters) between marker-free,
unstripped surroundings comes out with exactly one blank line (two
newlines) at that position: the markers passes leave the text unchanged,
the collapse rewrites the run to two newlines, and the final strip leaves
both ends alone. -/
theorem c6_blank_line_collapse (a b : List Char) (k : Nat) (hk : 5 ≤ k)
    (hab : ∀ c ∈ a, c ≠ '[') (hbb : ∀ c ∈ b, c ≠ '[')
    (ha3 : splitFirst tripleNl a = none) (hb3 : splitFirst tripleNl b = none)
    (halast : a.getLast? ≠ some '\n') (hbhead : b.head? ≠ some '\n')
    (hahead : ∀ c, a.head? = some c → isPySpace c = false)
    (hblast : ∀ c, b.getLast? = some c → isPySpace c = false)
    (hane : a ≠ []) (hbne : b ≠ []) :
    cleanup_markers (a ++ List.replicate k '\n' ++ b) = a ++ '\n' :: '\n' :: b := by
  unfold cleanup_markers
  have hT : ∀ c ∈ a ++ List.replicate k '\n' ++ b, c ≠ '[' := by
    intro c hc
    rcases List.mem_append.mp hc with hc2 | hc2
    · rcases List.mem_append.mp hc2 with hc3 | hc3
      · exact hab c hc3
      · rw [List.eq_of_mem_replicate hc3]
        decide
    · exact hbb c hc2
  have h1 : remove_lazy_marker '[' ['[', 'i', 'f'] (a ++ List.replicate k '\n' ++ b) =
      a ++ List.replicate k '\n' ++ b :=
    remove_lazy_marker_id (splitFirst_none_clean hT)
  have h2 : remove_lazy_marker '[' ['[', 'e', 'l', 's', 'e'] (a ++ List.replicate k '\n' ++ b) =
      a ++ List.replicate k '\n' ++ b :=
    remove_lazy_marker_id (splitFirst_none_clean hT)
  have h3 : replaceAll endMark [] (a ++ List.replicate k '\n' ++ b) =
      a ++ List.replicate k '\n' ++ b := by
    refine replaceAll_id_of_none ?_
    exact splitFirst_none_clean hT
  rw [h1, h2, h3]
  rw [collapse_append_run k (by omega) ha3 halast hb3 hbhead]
  apply pyStrip_eq_self
  · intro c hc
    apply hahead c
    cases a with
    | nil => exact absurd rfl hane
    | cons x xs => simpa using hc
  · intro c hc
    apply hblast c
    have e : (a ++ '\n' :: '\n' :: b).getLast? = b.getLast? := by
      rw [List.getLast?_append_of_ne_nil _ (by simp : ('\n' :: '\n' :: b : List Char) ≠ [])]
      cases b with
      | nil => exact absurd rfl hbne
      | cons x xs => rw [List.getLast?_cons_cons, List.getLast?_cons_cons]
    rw [e] at hc
    exact hc

/-- Closed witness for claim C6: four blank lines collapse to one. -/
theorem c6_blank_line_collapse_witness :
    cleanup_markers (("A").toList ++ List.replicate 5 '\n' ++ ("B").toList) =
      ("A").toList ++ '\n' :: '\n' :: ("B").toList :=
  c6_blank_line_collapse ("A").toList ("B").toList 5 (by omega)
    (by decide) (by decide) (by decide) (by decide) (by decide) (by decide)
    (by intro c hc; have hc2 : c = 'A' := (by simpa using hc.symm); subst hc2; decide)
    (by intro c hc; have hc2 : c = 'B' := (by simpa using hc.symm); subst hc2; decide)
    (by decide) (by decide)

/-! ## Claim C5: no marker leakage

The defensive cleanup of stage 4 is analysed on texts whose bracket
characters form complete single-line markers: a list of segments, each
either bracket-free text, a variable placeholder, a complete (possibly
orphaned or unbalanced) conditional marker with a newline-free interior,
or the block terminator.  Torn markers (an unclosed bracket sequence) and
markers whose interior spans a newline (the cleanup regexes carry no
`re.DOTALL` flag) are exactly what the cleanup cannot remove, as the
counterexample shows. -/

/-- A segment of stage-4 input text. -/
inductive Seg where
  | txt : List Char → Seg
  | varRef : List Char → Seg
  | ifM : List Char → Seg
  | elseM : List Char → Seg
  | endM : Seg

/-- The text of a segment: plain text, `[[.key]]`, `[[if...]]`,
`[[else...]]`, `[[end]]`. -/
def renderSeg : Seg → List Char
  | Seg.txt s => s
  | Seg.varRef k => ['[', '[', '.'] ++ k ++ [']', ']']
  | Seg.ifM s => ['[', '[', 'i', 'f'] ++ s ++ [']', ']']
  | Seg.elseM s => ['[', '[', 'e', 'l', 's', 'e'] ++ s ++ [']', ']']
  | Seg.endM => endMark

/-- The text of a segment list. -/
def renderSegs : List Seg → List Char
  | [] => []
  | s :: rest => renderSeg s ++ renderSegs rest

/-- Well-formedness of a segment: text carries no opening bracket, and
marker interiors carry no brackets at all (so the marker is closed by its
own final double bracket and by nothing earlier); the interiors of the if
and else markers also carry no newline, since the stage-4 patterns
`\[\[if.*?\]\]` and `\[\[else.*?\]\]` carry no `re.DOTALL` flag and a
newline-interior marker is not removed. -/
def cleanSeg : Seg → Prop
  | Seg.txt s => ∀ c ∈ s, c ≠ '['
  | Seg.varRef k => ∀ c ∈ k, c ≠ '[' ∧ c ≠ ']'
  | Seg.ifM s => ∀ c ∈ s, c ≠ '[' ∧ c ≠ ']' ∧ c ≠ '\n'
  | Seg.elseM s => ∀ c ∈ s, c ≠ '[' ∧ c ≠ ']' ∧ c ≠ '\n'
  | Seg.endM => True

def isIfSeg : Seg → Bool
  | Seg.ifM _ => true
  | _ => false

def isElseSeg : Seg → Bool
  | Seg.elseM _ => true
  | _ => false

def isEndSeg : Seg → Bool
  | Seg.endM => true
  | _ => false

/-- The opening text of the if-marker pattern of stage 4. -/
def ifMark : List Char := ['[', '[', 'i', 'f']

theorem renderSeg_txt (s : List Char) : renderSeg (Seg.txt s) = s := rfl

theorem renderSeg_var (k : List Char) :
    renderSeg (Seg.varRef k) = '[' :: '[' :: '.' :: (k ++ [']', ']']) := rfl

theorem renderSeg_if (s : List Char) :
    renderSeg (Seg.ifM s) = '[' :: '[' :: 'i' :: ('f' :: (s ++ [']', ']'])) := rfl

theorem renderSeg_else (s : List Char) :
    renderSeg (Seg.elseM s) = '[' :: '[' :: 'e' :: ('l' :: 's' :: 'e' :: (s ++ [']', ']'])) := rfl

theorem renderSeg_end : renderSeg Seg.endM = '[' :: '[' :: 'e' :: ('n' :: 'd' :: ']' :: ']' :: []) := rfl

theorem varRef_chunk_clean {k : List Char} (hk : ∀ c ∈ k, c ≠ '[' ∧ c ≠ ']') :
    ∀ c ∈ '.' :: (k ++ [']', ']']), c ≠ '[' := by
  simp only [List.forall_mem_cons, List.forall_mem_append]
  exact ⟨by decide, fun c hc => (hk c hc).1, by decide⟩

theorem ifM_chunk_clean {s : List Char} (hs : ∀ c ∈ s, c ≠ '[' ∧ c ≠ ']' ∧ c ≠ '\n') :
    ∀ c ∈ 'i' :: ('f' :: (s ++ [']', ']'])), c ≠ '[' := by
  simp only [List.forall_mem_cons, List.forall_mem_append]
  exact ⟨by decide, by decide, fun c hc => (hs c hc).1, by decide⟩

theorem elseM_chunk_clean {s : List Char} (hs : ∀ c ∈ s, c ≠ '[' ∧ c ≠ ']' ∧ c ≠ '\n') :
    ∀ c ∈ 'e' :: ('l' :: 's' :: 'e' :: (s ++ [']', ']'])), c ≠ '[' := by
  simp only [List.forall_mem_cons, List.forall_mem_append]
  exact ⟨by decide, by decide, by decide, by decide, fun c hc => (hs c hc).1, by decide⟩

theorem ifMark_noStart_var {k y : List Char} (hk : ∀ c ∈ k, c ≠ '[' ∧ c ≠ ']') :
    NoStart ifMark (renderSeg (Seg.varRef k)) y := by
  rw [renderSeg_var]
  exact noStart_two_bracket (by decide) (varRef_chunk_clean hk)
    (by simp [ifMark, List.isPrefixOf])

theorem ifMark_noStart_elseM {s y : List Char}
    (hs : ∀ c ∈ s, c ≠ '[' ∧ c ≠ ']' ∧ c ≠ '\n') :
    NoStart ifMark (renderSeg (Seg.elseM s)) y := by
  rw [renderSeg_else]
  exact noStart_two_bracket (by decide) (elseM_chunk_clean hs)
    (by simp [ifMark, List.isPrefixOf])

theorem ifMark_noStart_endM (y : List Char) :
    NoStart ifMark (renderSeg Seg.endM) y := by
  rw [renderSeg_end]
  exact noStart_two_bracket (by decide) (by decide)
    (by simp [ifMark, List.isPrefixOf])

theorem elseMark_noStart_var {k y : List Char} (hk : ∀ c ∈ k, c ≠ '[' ∧ c ≠ ']') :
    NoStart elseMark (renderSeg (Seg.varRef k)) y := by
  rw [renderSeg_var]
  exact noStart_two_bracket (by decide) (varRef_chunk_clean hk)
    (by simp [elseMark, List.isPrefixOf])

theorem elseMark_noStart_ifM {s y : List Char}
    (hs : ∀ c ∈ s, c ≠ '[' ∧ c ≠ ']' ∧ c ≠ '\n') :
    NoStart elseMark (renderSeg (Seg.ifM s)) y := by
  rw [renderSeg_if]
  exact noStart_two_bracket (by decide) (ifM_chunk_clean hs)
    (by simp [elseMark, List.isPrefixOf])

theorem elseMark_noStart_endM (y : List Char) :
    NoStart elseMark (renderSeg Seg.endM) y := by
  rw [renderSeg_end]
  exact noStart_two_bracket (by decide) (by decide)
    (by simp [elseMark, List.isPrefixOf])

theorem endMark_noStart_var {k y : List Char} (hk : ∀ c ∈ k, c ≠ '[' ∧ c ≠ ']') :
    NoStart endMark (renderSeg (Seg.varRef k)) y := by
  rw [renderSeg_var]
  exact noStart_two_bracket (by decide) (varRef_chunk_clean hk)
    (by simp [endMark, List.isPrefixOf])

theorem endMark_noStart_ifM {s y : List Char}
    (hs : ∀ c ∈ s, c ≠ '[' ∧ c ≠ ']' ∧ c ≠ '\n') :
    NoStart endMark (renderSeg (Seg.ifM s)) y := by
  rw [renderSeg_if]
  exact noStart_two_bracket (by decide) (ifM_chunk_clean hs)
    (by simp [endMark, List.isPrefixOf])

theorem endMark_noStart_elseM {s y : List Char}
    (hs : ∀ c ∈ s, c ≠ '[' ∧ c ≠ ']' ∧ c ≠ '\n') :
    NoStart endMark (renderSeg (Seg.elseM s)) y := by
  rw [renderSeg_else]
  exact endMark_noStart_elsechunk (elseM_chunk_clean hs)

theorem renderSeg_end_mark : renderSeg Seg.endM = endMark := rfl

theorem noStart_head {pat : List Char} {c : Char} {ch X : List Char}
    (h : NoStart pat (c :: ch) X) : pat.isPrefixOf (c :: (ch ++ X)) = false := by
  have h0 := h 0 (by simp)
  simpa using h0

theorem noStart_tail {pat : List Char} {c : Char} {ch X : List Char}
    (h : NoStart pat (c :: ch) X) : NoStart pat ch X := by
  intro k hk
  have h1 := h (k + 1) (by simp only [List.length_cons]; omega)
  simpa using h1

theorem remove_lazy_marker_over {op0 : Char} {opTail chunk X : List Char}
    (h : NoStart (op0 :: opTail) chunk X) :
    remove_lazy_marker op0 opTail (chunk ++ X) =
      chunk ++ remove_lazy_marker op0 opTail X := by
  induction chunk with
  | nil => simp
  | cons c ch ih =>
    have hstep : lazy_marker_step op0 opTail (c :: (ch ++ X)) = none := by
      unfold lazy_marker_step
      rw [noStart_head h]
      simp
    rw [List.cons_append, remove_lazy_marker_cons]
    simp only [hstep]
    rw [ih (noStart_tail h), List.cons_append]

theorem removeIf_render : ∀ L : List Seg, (∀ s ∈ L, cleanSeg s) →
    remove_lazy_marker '[' ['[', 'i', 'f'] (renderSegs L) =
      renderSegs (L.filter (fun s => !isIfSeg s)) := by
  intro L
  induction L with
  | nil => intro h; rfl
  | cons s rest ih =>
    intro h
    have hs := h s (by simp)
    have hrest : ∀ x ∈ rest, cleanSeg x := fun x hx => h x (by simp [hx])
    show remove_lazy_marker '[' ['[', 'i', 'f'] (renderSeg s ++ renderSegs rest) = _
    cases s with
    | ifM s0 =>
      have e : renderSeg (Seg.ifM s0) ++ renderSegs rest =
          '[' :: ('[' :: 'i' :: 'f' :: (s0 ++ ([']', ']'] ++ renderSegs rest))) := by
        simp [renderSeg, List.append_assoc]
      have hbr : ∀ c ∈ ([']', ']'] : List Char), notNl c = true := by decide
      have htw : (s0 ++ ([']', ']'] ++ renderSegs rest)).takeWhile notNl =
          s0 ++ ([']', ']'] ++ (renderSegs rest).takeWhile notNl) := by
        rw [takeWhile_append_all (fun c hc => notNl_of_ne (hs c hc).2.2),
          takeWhile_append_all hbr]
      have hdw : (s0 ++ ([']', ']'] ++ renderSegs rest)).dropWhile notNl =
          (renderSegs rest).dropWhile notNl := by
        rw [dropWhile_append_all (fun c hc => notNl_of_ne (hs c hc).2.2),
          dropWhile_append_all hbr]
      have hsplit : splitFirst closeBr
          (s0 ++ ([']', ']'] ++ (renderSegs rest).takeWhile notNl)) =
          some (s0, (renderSegs rest).takeWhile notNl) :=
        splitFirst_occ_assoc (by simp [closeBr])
          (noStart_clean (fun c hc => (hs c hc).2.1))
      have hpre : (('[' : Char) :: ['[', 'i', 'f']).isPrefixOf
          ('[' :: ('[' :: 'i' :: 'f' :: (s0 ++ ([']', ']'] ++ renderSegs rest)))) = true := by
        simp [List.isPrefixOf]
      have hdropEq : ('[' :: ('[' :: 'i' :: 'f' ::
          (s0 ++ ([']', ']'] ++ renderSegs rest)))).drop
            ((['[', 'i', 'f'] : List Char).length + 1) =
          s0 ++ ([']', ']'] ++ renderSegs rest) := rfl
      have hstep : lazy_marker_step '[' ['[', 'i', 'f']
          ('[' :: ('[' :: 'i' :: 'f' :: (s0 ++ ([']', ']'] ++ renderSegs rest)))) =
          some (renderSegs rest) := by
        unfold lazy_marker_step
        rw [if_pos hpre, hdropEq, htw, hdw]
        simp only [hsplit]
        rw [List.takeWhile_append_dropWhile]
      rw [e, remove_lazy_marker_cons]
      simp only [hstep]
      rw [ih hrest]
      simp [List.filter_cons, isIfSeg]
    | txt s0 =>
      rw [renderSeg_txt, remove_lazy_marker_over (noStart_clean hs), ih hrest]
      simp [List.filter_cons, isIfSeg, renderSegs, renderSeg]
    | varRef k =>
      rw [remove_lazy_marker_over (ifMark_noStart_var hs), ih hrest]
      simp [List.filter_cons, isIfSeg, renderSegs, renderSeg]
    | elseM s0 =>
      rw [remove_lazy_marker_over (ifMark_noStart_elseM hs), ih hrest]
      simp [List.filter_cons, isIfSeg, renderSegs, renderSeg]
    | endM =>
      rw [remove_lazy_marker_over (ifMark_noStart_endM _), ih hrest]
      simp [List.filter_cons, isIfSeg, renderSegs, renderSeg]

theorem removeElse_render : ∀ L : List Seg, (∀ s ∈ L, cleanSeg s) →
    remove_lazy_marker '[' ['[', 'e', 'l', 's', 'e'] (renderSegs L) =
      renderSegs (L.filter (fun s => !isElseSeg s)) := by
  intro L
  induction L with
  | nil => intro h; rfl
  | cons s rest ih =>
    intro h
    have hs := h s (by simp)
    have hrest : ∀ x ∈ rest, cleanSeg x := fun x hx => h x (by simp [hx])
    show remove_lazy_marker '[' ['[', 'e', 'l', 's', 'e'] (renderSeg s ++ renderSegs rest) = _
    cases s with
    | elseM s0 =>
      have e : renderSeg (Seg.elseM s0) ++ renderSegs rest =
          '[' :: ('[' :: 'e' :: 'l' :: 's' :: 'e' ::
            (s0 ++ ([']', ']'] ++ renderSegs rest))) := by
        simp [renderSeg, List.append_assoc]
      have hbr : ∀ c ∈ ([']', ']'] : List Char), notNl c = true := by decide
      have htw : (s0 ++ ([']', ']'] ++ renderSegs rest)).takeWhile notNl =
          s0 ++ ([']', ']'] ++ (renderSegs rest).takeWhile notNl) := by
        rw [takeWhile_append_all (fun c hc => notNl_of_ne (hs c hc).2.2),
          takeWhile_append_all hbr]
      have hdw : (s0 ++ ([']', ']'] ++ renderSegs rest)).dropWhile notNl =
          (renderSegs rest).dropWhile notNl := by
        rw [dropWhile_append_all (fun c hc => notNl_of_ne (hs c hc).2.2),
          dropWhile_append_all hbr]
      have hsplit : splitFirst closeBr
          (s0 ++ ([']', ']'] ++ (renderSegs rest).takeWhile notNl)) =
          some (s0, (renderSegs rest).takeWhile notNl) :=
        splitFirst_occ_assoc (by simp [closeBr])
          (noStart_clean (fun c hc => (hs c hc).2.1))
      have hpre : (('[' : Char) :: ['[', 'e', 'l', 's', 'e']).isPrefixOf
          ('[' :: ('[' :: 'e' :: 'l' :: 's' :: 'e' ::
            (s0 ++ ([']', ']'] ++ renderSegs rest)))) = true := by
        simp [List.isPrefixOf]
      have hdropEq : ('[' :: ('[' :: 'e' :: 'l' :: 's' :: 'e' ::
          (s0 ++ ([']', ']'] ++ renderSegs rest)))).drop
            ((['[', 'e', 'l', 's', 'e'] : List Char).length + 1) =
          s0 ++ ([']', ']'] ++ renderSegs rest) := rfl
      have hstep : lazy_marker_step '[' ['[', 'e', 'l', 's', 'e']
          ('[' :: ('[' :: 'e' :: 'l' :: 's' :: 'e' ::
            (s0 ++ ([']', ']'] ++ renderSegs rest)))) =
          some (renderSegs rest) := by
        unfold lazy_marker_step
        rw [if_pos hpre, hdropEq, htw, hdw]
        simp only [hsplit]
        rw [List.takeWhile_append_dropWhile]
      rw [e, remove_lazy_marker_cons]
      simp only [hstep]
      rw [ih hrest]
      simp [List.filter_cons, isElseSeg]
    | txt s0 =>
      rw [renderSeg_txt, remove_lazy_marker_over (noStart_clean hs), ih hrest]
      simp [List.filter_cons, isElseSeg, renderSegs, renderSeg]
    | varRef k =>
      rw [remove_lazy_marker_over (elseMark_noStart_var hs), ih hrest]
      simp [List.filter_cons, isElseSeg, renderSegs, renderSeg]
    | ifM s0 =>
      rw [remove_lazy_marker_over (elseMark_noStart_ifM hs), ih hrest]
      simp [List.filter_cons, isElseSeg, renderSegs, renderSeg]
    | endM =>
      rw [remove_lazy_marker_over (elseMark_noStart_endM _), ih hrest]
      simp [List.filter_cons, isElseSeg, renderSegs, renderSeg]

theorem removeEnd_render : ∀ L : List Seg, (∀ s ∈ L, cleanSeg s) →
    replaceAll endMark [] (renderSegs L) =
      renderSegs (L.filter (fun s => !isEndSeg s)) := by
  intro L
  induction L with
  | nil => intro h; rfl
  | cons s rest ih =>
    intro h
    have hs := h s (by simp)
    have hrest : ∀ x ∈ rest, cleanSeg x := fun x hx => h x (by simp [hx])
    show replaceAll endMark [] (renderSeg s ++ renderSegs rest) = _
    cases s with
    | endM =>
      rw [renderSeg_end_mark,
        show replaceAll endMark [] (endMark ++ renderSegs rest) =
          [] ++ replaceAll endMark [] (renderSegs rest) from replaceAll_head_occ []]
      rw [ih hrest]
      simp [List.filter_cons, isEndSeg]
    | txt s0 =>
      rw [renderSeg_txt,
        replaceAll_append_of_noStart
          (show NoStart endMark s0 (renderSegs rest) from noStart_clean hs),
        ih hrest]
      simp [List.filter_cons, isEndSeg, renderSegs, renderSeg]
    | varRef k =>
      rw [replaceAll_append_of_noStart (endMark_noStart_var hs), ih hrest]
      simp [List.filter_cons, isEndSeg, renderSegs, renderSeg]
    | ifM s0 =>
      rw [replaceAll_append_of_noStart (endMark_noStart_ifM hs), ih hrest]
      simp [List.filter_cons, isEndSeg, renderSegs, renderSeg]
    | elseM s0 =>
      rw [replaceAll_append_of_noStart (endMark_noStart_elseM hs), ih hrest]
      simp [List.filter_cons, isEndSeg, renderSegs, renderSeg]

theorem noStart_renderSegs {pat : List Char} {L : List Seg}
    (h : ∀ s ∈ L, ∀ y, NoStart pat (renderSeg s) y) (y : List Char) :
    NoStart pat (renderSegs L) y := by
  induction L with
  | nil => intro k hk; simp [renderSegs] at hk
  | cons s rest ih =>
    show NoStart pat (renderSeg s ++ renderSegs rest) y
    exact noStart_append (h s (by simp) _)
      (ih (fun x hx y2 => h x (by simp [hx]) y2))

theorem none_ifMark_render {L : List Seg} (hclean : ∀ s ∈ L, cleanSeg s)
    (hno : ∀ s ∈ L, isIfSeg s = false) :
    splitFirst ifMark (renderSegs L) = none := by
  refine splitFirst_none_of_noStart (by decide) (noStart_renderSegs ?_ [])
  intro s hs y
  cases s with
  | txt s0 => exact noStart_clean (hclean _ hs)
  | varRef k => exact ifMark_noStart_var (hclean _ hs)
  | ifM s0 => exact absurd (hno _ hs) (by simp [isIfSeg])
  | elseM s0 => exact ifMark_noStart_elseM (hclean _ hs)
  | endM => exact ifMark_noStart_endM y

theorem none_elseMark_render {L : List Seg} (hclean : ∀ s ∈ L, cleanSeg s)
    (hno : ∀ s ∈ L, isElseSeg s = false) :
    splitFirst elseMark (renderSegs L) = none := by
  refine splitFirst_none_of_noStart (by decide) (noStart_renderSegs ?_ [])
  intro s hs y
  cases s with
  | txt s0 => exact noStart_clean (hclean _ hs)
  | varRef k => exact elseMark_noStart_var (hclean _ hs)
  | ifM s0 => exact elseMark_noStart_ifM (hclean _ hs)
  | elseM s0 => exact absurd (hno _ hs) (by simp [isElseSeg])
  | endM => exact elseMark_noStart_endM y

theorem none_endMark_render {L : List Seg} (hclean : ∀ s ∈ L, cleanSeg s)
    (hno : ∀ s ∈ L, isEndSeg s = false) :
    splitFirst endMark (renderSegs L) = none := by
  refine splitFirst_none_of_noStart (by decide) (noStart_renderSegs ?_ [])
  intro s hs y
  cases s with
  | txt s0 => exact noStart_clean (hclean _ hs)
  | varRef k => exact endMark_noStart_var (hclean _ hs)
  | ifM s0 => exact endMark_noStart_ifM (hclean _ hs)
  | elseM s0 => exact endMark_noStart_elseM (hclean _ hs)
  | endM => exact absurd (hno _ hs) (by simp [isEndSeg])

theorem splitFirst_none_dropWhile {pat t : List Char} {p : Char → Bool}
    (h : splitFirst pat t = none) :
    splitFirst pat (t.dropWhile p) = none := by
  induction t with
  | nil => exact h
  | cons c rest ih =>
    simp only [List.dropWhile]
    split
    · exact ih (splitFirst_cons_none h)
    · exact h

theorem isPrefixOf_false_of_head_ne {a b : Char} {u v : List Char} (h : a ≠ b) :
    (a :: u).isPrefixOf (b :: v) = false := by
  simp only [List.isPrefixOf, Bool.and_eq_false_iff]
  left
  simp only [beq_eq_false_iff_ne]
  exact h

theorem splitFirst_cons_none_intro {pat : List Char} {d : Char} {Y : List Char}
    (hd : pat.isPrefixOf (d :: Y) = false) (hY : splitFirst pat Y = none) :
    splitFirst pat (d :: Y) = none := by
  simp only [splitFirst]
  rw [if_neg (by simp [hd]), hY]

theorem collapse_takeWhile : ∀ (n : Nat) (t : List Char), t.length ≤ n →
    (collapse_blank_lines t).takeWhile notNl = t.takeWhile notNl := by
  intro n
  induction n with
  | zero =>
    intro t ht
    have : t = [] := List.eq_nil_of_length_eq_zero (by omega)
    subst this
    rfl
  | succ n ih =>
    intro t ht
    cases t with
    | nil => rfl
    | cons c rest =>
      rw [collapse_blank_lines_cons]
      by_cases hc : c = '\n' ∧ ['\n', '\n'].isPrefixOf rest
      · rw [if_pos hc]
        obtain ⟨rfl, -⟩ := hc
        simp [List.takeWhile_cons, notNl]
      · rw [if_neg hc]
        simp only [List.length_cons] at ht
        cases hq : notNl c with
        | true => simp [List.takeWhile_cons, hq, ih rest (by omega)]
        | false => simp [List.takeWhile_cons, hq]

theorem collapse_takeWhile_eq (t : List Char) :
    (collapse_blank_lines t).takeWhile notNl = t.takeWhile notNl :=
  collapse_takeWhile t.length t le_rfl

theorem isPrefixOf_takeWhile {pat : List Char} (hnl : '\n' ∉ pat) :
    ∀ s : List Char, pat.isPrefixOf s = pat.isPrefixOf (s.takeWhile notNl) := by
  induction pat with
  | nil => intro s; simp [List.isPrefixOf]
  | cons a pt ih =>
    have ha : a ≠ '\n' := fun hcon => hnl (by simp [hcon])
    intro s
    cases s with
    | nil => rfl
    | cons c s' =>
      by_cases hcnl : c = '\n'
      · subst hcnl
        have hq : notNl '\n' = false := by decide
        simp only [List.takeWhile_cons, hq, if_false]
        simp only [List.isPrefixOf, Bool.and_eq_false_iff]
        left
        simp only [beq_eq_false_iff_ne]
        exact ha
      · have hq : notNl c = true := by simp [notNl, hcnl]
        simp only [List.takeWhile_cons, hq, if_true]
        simp only [List.isPrefixOf]
        rw [ih (fun hcon => hnl (by simp [hcon])) s']

theorem collapse_none {pat : List Char} (hne : pat ≠ []) (hnl : '\n' ∉ pat) :
    ∀ (n : Nat) (t : List Char), t.length ≤ n → splitFirst pat t = none →
      splitFirst pat (collapse_blank_lines t) = none := by
  intro n
  induction n with
  | zero =>
    intro t ht h
    have : t = [] := List.eq_nil_of_length_eq_zero (by omega)
    subst this
    exact h
  | succ n ih =>
    intro t ht h
    cases t with
    | nil => exact h
    | cons c rest =>
      have hh := splitFirst_none_not_pre h
      have ht2 := splitFirst_cons_none h
      simp only [List.length_cons] at ht
      rw [collapse_blank_lines_cons]
      obtain ⟨a, pt, rfl⟩ : ∃ a pt, pat = a :: pt := by
        cases pat with
        | nil => exact absurd rfl hne
        | cons a pt => exact ⟨a, pt, rfl⟩
      have ha : a ≠ '\n' := fun hcon => hnl (by simp [hcon])
      by_cases hc : c = '\n' ∧ ['\n', '\n'].isPrefixOf rest
      · rw [if_pos hc]
        have hdrop := dropWhile_length_le (fun x => x = '\n') rest
        have hX : splitFirst (a :: pt) (collapse_blank_lines
            (rest.dropWhile (fun x => x = '\n'))) = none :=
          ih (rest.dropWhile (fun x => x = '\n')) (by omega)
            (splitFirst_none_dropWhile ht2)
        exact splitFirst_cons_none_intro (isPrefixOf_false_of_head_ne ha)
          (splitFirst_cons_none_intro (isPrefixOf_false_of_head_ne ha) hX)
      · rw [if_neg hc]
        refine splitFirst_cons_none_intro ?_ (ih rest (by omega) ht2)
        rw [isPrefixOf_takeWhile hnl]
        have e : (c :: collapse_blank_lines rest).takeWhile notNl =
            (c :: rest).takeWhile notNl := by
          cases hq : notNl c with
          | true => simp [List.takeWhile_cons, hq, collapse_takeWhile_eq]
          | false => simp [List.takeWhile_cons, hq]
        rw [e, ← isPrefixOf_takeWhile hnl]
        exact hh

theorem collapse_none_eq {pat t : List Char} (hne : pat ≠ []) (hnl : '\n' ∉ pat)
    (h : splitFirst pat t = none) :
    splitFirst pat (collapse_blank_lines t) = none :=
  collapse_none hne hnl t.length t le_rfl h

theorem splitFirst_occ_ne_none {p0 : Char} {pt : List Char} :
    ∀ x y : List Char, splitFirst (p0 :: pt) (x ++ ((p0 :: pt) ++ y)) ≠ none := by
  intro x
  induction x with
  | nil =>
    intro y
    rw [List.nil_append, splitFirst_self_append]
    simp
  | cons c x' ih =>
    intro y h
    exact ih y (splitFirst_cons_none h)

theorem splitFirst_none_mid {pat u m v : List Char} (hp : pat ≠ [])
    (h : splitFirst pat (u ++ (m ++ v)) = none) : splitFirst pat m = none := by
  cases hm : splitFirst pat m with
  | none => rfl
  | some p =>
    exfalso
    obtain ⟨a, b⟩ := p
    have em := splitFirst_ne_eq hp hm
    cases pat with
    | nil => exact absurd rfl hp
    | cons p0 pt =>
      have e : u ++ (m ++ v) = (u ++ a) ++ ((p0 :: pt) ++ (b ++ v)) := by
        subst em
        simp [List.append_assoc]
      rw [e] at h
      exact splitFirst_occ_ne_none (u ++ a) (b ++ v) h

theorem pyStrip_decomp (t : List Char) : ∃ u v, t = u ++ (pyStrip t ++ v) := by
  refine ⟨t.takeWhile isPySpace,
    ((t.dropWhile isPySpace).reverse.takeWhile isPySpace).reverse, ?_⟩
  unfold pyStrip
  conv_lhs => rw [← List.takeWhile_append_dropWhile (p := isPySpace) (l := t)]
  congr 1
  conv_lhs => rw [← List.reverse_reverse (t.dropWhile isPySpace),
    ← List.takeWhile_append_dropWhile (p := isPySpace)
      (l := (t.dropWhile isPySpace).reverse)]
  rw [List.reverse_append]

theorem pyStrip_none {pat t : List Char} (hp : pat ≠ [])
    (h : splitFirst pat t = none) : splitFirst pat (pyStrip t) = none := by
  obtain ⟨u, v, e⟩ := pyStrip_decomp t
  rw [e] at h
  exact splitFirst_none_mid hp h

/-- Claim C5 is false as stated: a template with a torn marker — an
`[[if` never closed by a double bracket — passes through every stage
untouched, and so does a marker whose interior spans a newline, because
the stage-4 cleanup regexes carry no `re.DOTALL` flag and their lazy
interior cannot cross a line break; in both cases the compiled output
still contains the literal `[[if`. -/
theorem c5_marker_leak_counterexample :
    process [] ("[[if x").toList = ("[[if x").toList ∧
    splitFirst ifMark (process [] ("[[if x").toList) ≠ none ∧
    process [] ("[[if\nx]]").toList = ("[[if\nx]]").toList ∧
    splitFirst ifMark (process [] ("[[if\nx]]").toList) ≠ none := by
  exact ⟨by decide, by decide, by decide, by decide⟩

/-- Claim C5 (amended): the compiled output contains no occurrence of
`[[if`, `[[else` or `[[end]]` for every stage-4 text whose bracket
sequences form complete single-line markers — bracket-free text, variable
placeholders, and `[[if...]]`, `[[else...]]`, `[[end]]` markers whose
interiors are bracket-free and newline-free, even unbalanced, orphaned or
out of order.  (Both restrictions are forced: a torn marker such as an
unclosed `[[if x` leaks, and so does a marker whose interior spans a
newline, because the cleanup regexes carry no `re.DOTALL` flag — see the
counterexample.) -/
theorem c5_marker_leak_amended (L : List Seg) (hclean : ∀ s ∈ L, cleanSeg s) :
    splitFirst ifMark (cleanup_markers (renderSegs L)) = none ∧
    splitFirst elseMark (cleanup_markers (renderSegs L)) = none ∧
    splitFirst endMark (cleanup_markers (renderSegs L)) = none := by
  unfold cleanup_markers
  rw [removeIf_render L hclean]
  have hc1 : ∀ s ∈ L.filter (fun s => !isIfSeg s), cleanSeg s :=
    fun s hs => hclean s (List.mem_of_mem_filter hs)
  rw [removeElse_render _ hc1]
  have hc2 : ∀ s ∈ (L.filter (fun s => !isIfSeg s)).filter (fun s => !isElseSeg s),
      cleanSeg s := fun s hs => hc1 s (List.mem_of_mem_filter hs)
  rw [removeEnd_render _ hc2]
  have hc3 : ∀ s ∈ ((L.filter (fun s => !isIfSeg s)).filter
      (fun s => !isElseSeg s)).filter (fun s => !isEndSeg s), cleanSeg s :=
    fun s hs => hc2 s (List.mem_of_mem_filter hs)
  have hnoIf : ∀ s ∈ ((L.filter (fun s => !isIfSeg s)).filter
      (fun s => !isElseSeg s)).filter (fun s => !isEndSeg s), isIfSeg s = false := by
    intro s hs
    have h2 := (List.mem_filter.mp
      (List.mem_of_mem_filter (List.mem_of_mem_filter hs))).2
    simpa using h2
  have hnoElse : ∀ s ∈ ((L.filter (fun s => !isIfSeg s)).filter
      (fun s => !isElseSeg s)).filter (fun s => !isEndSeg s), isElseSeg s = false := by
    intro s hs
    have h2 := (List.mem_filter.mp (List.mem_of_mem_filter hs)).2
    simpa using h2
  have hnoEnd : ∀ s ∈ ((L.filter (fun s => !isIfSeg s)).filter
      (fun s => !isElseSeg s)).filter (fun s => !isEndSeg s), isEndSeg s = false := by
    intro s hs
    have h2 := (List.mem_filter.mp hs).2
    simpa using h2
  refine ⟨?_, ?_, ?_⟩
  · exact pyStrip_none (by decide)
      (collapse_none_eq (by decide) (by decide) (none_ifMark_render hc3 hnoIf))
  · exact pyStrip_none (by decide)
      (collapse_none_eq (by decide) (by decide) (none_elseMark_render hc3 hnoElse))
  · exact pyStrip_none (by decide)
      (collapse_none_eq (by decide) (by decide) (none_endMark_render hc3 hnoEnd))

/-- Closed witness for the amended claim C5, on a text with an orphaned
terminator, an orphaned else marker, a placeholder, and a complete if
marker, out of any block order. -/
theorem c5_marker_leak_amended_witness :
    splitFirst ifMark (cleanup_markers (renderSegs
      [Seg.txt ("Hi ").toList, Seg.endM, Seg.elseM (" junk ").toList,
       Seg.varRef ("Topic").toList, Seg.ifM (" .Category ").toList,
       Seg.txt ("!").toList])) = none ∧
    splitFirst elseMark (cleanup_markers (renderSegs
      [Seg.txt ("Hi ").toList, Seg.endM, Seg.elseM (" junk ").toList,
       Seg.varRef ("Topic").toList, Seg.ifM (" .Category ").toList,
       Seg.txt ("!").toList])) = none ∧
    splitFirst endMark (cleanup_markers (renderSegs
      [Seg.txt ("Hi ").toList, Seg.endM, Seg.elseM (" junk ").toList,
       Seg.varRef ("Topic").toList, Seg.ifM (" .Category ").toList,
       Seg.txt ("!").toList])) = none :=
  c5_marker_leak_amended
    [Seg.txt ("Hi ").toList, Seg.endM, Seg.elseM (" junk ").toList,
     Seg.varRef ("Topic").toList, Seg.ifM (" .Category ").toList,
     Seg.txt ("!").toList]
    (by
      intro s hs
      simp only [List.mem_cons, List.not_mem_nil, or_false] at hs
      rcases hs with rfl | rfl | rfl | rfl | rfl | rfl
      · exact (by decide : ∀ c ∈ ("Hi ").toList, c ≠ '[')
      · exact trivial
      · exact (by decide : ∀ c ∈ (" junk ").toList, c ≠ '[' ∧ c ≠ ']' ∧ c ≠ '\n')
      · exact (by decide : ∀ c ∈ ("Topic").toList, c ≠ '[' ∧ c ≠ ']')
      · exact (by decide : ∀ c ∈ (" .Category ").toList, c ≠ '[' ∧ c ≠ ']' ∧ c ≠ '\n')
      · exact (by decide : ∀ c ∈ ("!").toList, c ≠ '['))
